import Mathlib

/-!
Verification of the student/project assignment pipeline
(`student_assignment.py`).

The script assigns students to capacity-bounded projects in five phases:
an initial greedy pass over ranked preferences (STEP 1), pruning of
undersubscribed projects (STEP 2), reassignment of evicted students
(STEP 3), final balancing of never-assigned students (STEP 4) and
assembly of the sorted result ledger (STEP 5).

The embedding below mirrors the script's data and control flow:

* `Student` / `Project` are the rows of the two input CSV tables.
* The mutable `assignments` dictionary is a `defaultdict(list)`; it is
  embedded as an insertion-ordered association list `DD` whose read
  operation `ddGet` inserts a missing key bound to `[]`, exactly as the
  Python `defaultdict.__getitem__` does.
* `random.shuffle` / `random.choice` draw from one global generator
  seeded once with `SEED`; the embedding threads an abstract generator
  state (`Nat`) through a `Rand` structure whose two operations stand
  for those two draws.
-/

namespace StudentAssignment

/-- A row of `student_preferences.csv`: name, nationality, background,
comma-separated time slots, the five ranked preferences and the
company-type preference. -/
structure Student where
  name : String
  nationality : String
  background : String
  timeSlots : String
  pref1 : String
  pref2 : String
  pref3 : String
  pref4 : String
  pref5 : String
  companyPreference : String
deriving Repr, DecidableEq, Inhabited

/-- A row of `projects.csv`: project id, type and capacity. -/
structure Project where
  pname : String
  ptype : String
  capacity : Nat
deriving Repr, DecidableEq, Inhabited

/-- The five ranked preferences in order (`pref_cols` = Pref1..Pref5). -/
def prefList (s : Student) : List String :=
  [s.pref1, s.pref2, s.pref3, s.pref4, s.pref5]

/-- `proj_capacity = dict(zip(projects_df["Project"], projects_df["Capacity"]))`. -/
def projCaps (projs : List Project) : List (String × Nat) :=
  projs.map (fun p => (p.pname, p.capacity))

/-- `proj_types = dict(zip(projects_df["Project"], projects_df["Type"]))`. -/
def projTypes (projs : List Project) : List (String × String) :=
  projs.map (fun p => (p.pname, p.ptype))

/-- `projects = list(proj_types.keys())`. -/
def projectNames (projs : List Project) : List String :=
  projs.map (fun p => p.pname)

/-- Dictionary lookup on an insertion-ordered association list. -/
def lookupA {β : Type} : List (String × β) → String → Option β
  | [], _ => none
  | (k', v) :: rest, k => if k' = k then some v else lookupA rest k

/-- The assignments dictionary `defaultdict(list)`: project id → member
names, in insertion order of both keys and members. -/
abbrev DD := List (String × List String)

/-- `assignments[project]` on a `defaultdict(list)`: returns the bound
list, inserting the key bound to `[]` first when it is missing. The
second component is the dictionary after the access. -/
def ddGet (dd : DD) (k : String) : List String × DD :=
  match lookupA dd k with
  | some v => (v, dd)
  | none => ([], dd ++ [(k, [])])

/-- `assignments[k] = v`: replace the value at an existing key in place,
or append the binding when the key is missing. -/
def ddSet : DD → String → List String → DD
  | [], k, v => [(k, v)]
  | (k', v') :: rest, k, v =>
    if k' = k then (k', v) :: rest else (k', v') :: ddSet rest k v

/-- `assignments[k].append(n)` (the `defaultdict` read inserts the key
when missing, then the list is extended by one element). -/
def ddAppend (dd : DD) (k : String) (n : String) : DD :=
  let g := ddGet dd k
  ddSet g.2 k (g.1 ++ [n])

/-- All member names over all projects, in dictionary order
(`itertools.chain(*assignments.values())`). -/
def memLists (dd : DD) : List String := dd.flatMap (fun pm => pm.2)

/-- The dictionary's keys in insertion order. -/
def ddKeys (dd : DD) : List String := dd.map (fun pm => pm.1)

/-- `df[df["Name"] == name].iloc[0]`: the first student row with the
given name. -/
def getRow (df : List Student) (name : String) : Student :=
  (df.find? (fun s => s.name == name)).getD default

/-- `ts.split(",")`: split a comma-separated string (a split on every
comma, empty pieces kept). -/
def splitAux : List Char → List Char → List String
  | [], cur => [String.mk cur.reverse]
  | c :: rest, cur =>
    if c = ',' then String.mk cur.reverse :: splitAux rest []
    else splitAux rest (c :: cur)

/-- `set(ts.split(","))`: the distinct time slots of one student. -/
def slotSet (ts : String) : List String := (splitAux ts.data []).dedup

/-- `set.intersection(*all_slots)`: intersect a nonempty family of slot
sets (the empty family yields `[]`, but the script never builds one). -/
def interAll : List (List String) → List String
  | [] => []
  | s :: rest => rest.foldl (fun acc t => acc.filter (fun x => decide (x ∈ t))) s

/-- `can_assign(student_row, project, assignments)`: capacity, ≤2 per
nationality, ≤2 per background, and ≥2 collectively shared time slots.
Returns the boolean together with the dictionary after the access,
because the `defaultdict` read `assignments[project]` inserts a missing
key. -/
def can_assign (df : List Student) (row : Student) (project : String)
    (caps : List (String × Nat)) (dd : DD) : Bool × DD :=
  match lookupA caps project with
  | none => (false, dd)
  | some cap =>
    let g := ddGet dd project
    if cap ≤ g.1.length then (false, g.2)
    else
      let membersDf := df.filter (fun s => decide (s.name ∈ g.1))
      let nats := membersDf.map (fun s => s.nationality)
      let bgs := membersDf.map (fun s => s.background)
      if 2 ≤ nats.count row.nationality then (false, g.2)
      else if 2 ≤ bgs.count row.background then (false, g.2)
      else if membersDf.isEmpty then (true, g.2)
      else
        let allSlots := membersDf.map (fun s => slotSet s.timeSlots)
          ++ [slotSet row.timeSlots]
        if (interAll allSlots).length < 2 then (false, g.2) else (true, g.2)

/-- The script's mutable state: the assignments dictionary, the
`assigned_set`, the `unassigned_students` list and the generator
state. -/
structure PipeState where
  asg : DD
  assignedSet : List String
  unassigned : List String
  gen : Nat
deriving Repr, DecidableEq, Inhabited

/-- The seeded pseudo-random generator, abstracted: `shuffle` is
`random.shuffle` (consuming and returning generator state), `next` is
the draw backing `random.choice`. -/
structure Rand where
  shuffle : List String → Nat → List String × Nat
  next : Nat → Nat × Nat

/-- `random.choice(l)` given a drawn number: an element of `l` whenever
`l` is nonempty (the script only calls it under that guard). -/
def pickFrom (l : List String) (r : Nat) : String := l.getD (r % l.length) ""

/-- A generator that shuffles nothing and always draws 0; one concrete
instance of `Rand` used to evaluate the pipeline on closed inputs. -/
def idRand : Rand where
  shuffle := fun l g => (l, g)
  next := fun g => (0, g + 1)

/-- STEP 1, inner body: one visit of one student at one preference rank.
Skips students already in `assigned_set` and preference entries naming
no catalog project; otherwise commits the assignment when `can_assign`
accepts. -/
def step1Visit (df : List Student) (caps : List (String × Nat)) (prefIdx : Nat)
    (st : PipeState) (name : String) : PipeState :=
  if name ∈ st.assignedSet then st
  else
    let row := getRow df name
    let proj := (prefList row).getD prefIdx ""
    if lookupA caps proj = none then st
    else
      let c := can_assign df row proj caps st.asg
      if c.1 then
        { st with asg := ddAppend c.2 proj name,
                  assignedSet := st.assignedSet ++ [name] }
      else { st with asg := c.2 }

/-- STEP 1: shuffle the visitation order once, then for each preference
rank visit every student in that fixed order. -/
def step1 (R : Rand) (df : List Student) (caps : List (String × Nat))
    (seed : Nat) : PipeState :=
  let names := df.map (fun s => s.name)
  let sh := R.shuffle names seed
  (List.range 5).foldl
    (fun st i => sh.1.foldl (step1Visit df caps i) st)
    { asg := [], assignedSet := [], unassigned := [], gen := sh.2 }

/-- STEP 2, detection: `[p for p, members in assignments.items() if
len(members) < proj_capacity[p] // 2]`. Only projects present as keys of
the assignments dictionary are examined. -/
def not_viable (caps : List (String × Nat)) (dd : DD) : List String :=
  (dd.filter (fun pm =>
    decide (pm.2.length < (lookupA caps pm.1).getD 0 / 2))).map (fun pm => pm.1)

/-- STEP 2, eviction loop: `to_reassign.extend(assignments[p]);
assignments[p] = []` for each non-viable project. -/
def evictAux : List String → List String × DD → List String × DD
  | [], acc => acc
  | p :: rest, acc =>
    let g := ddGet acc.2 p
    evictAux rest (acc.1 ++ g.1, ddSet g.2 p [])

/-- STEP 2: the evicted students (`to_reassign`) and the state after all
non-viable projects were emptied. -/
def evict (nv : List String) (st : PipeState) : List String × PipeState :=
  let r := evictAux nv ([], st.asg)
  (r.1, { st with asg := r.2 })

/-- STEP 3, first attempt: scan the five ranked preferences in order,
skip projects in the non-viable list, accept the first passing
`can_assign`; the dictionary state is threaded through every check. -/
def prefScan (df : List Student) (caps : List (String × Nat)) (nv : List String)
    (row : Student) : List String → DD → Option String × DD
  | [], a => (none, a)
  | p :: rest, a =>
    if p ∈ nv then prefScan df caps nv row rest a
    else
      let c := can_assign df row p caps a
      if c.1 then (some p, c.2) else prefScan df caps nv row rest c.2

/-- STEP 3/4, candidate list: `[p for p in projects if p not in
not_viable and proj_types[p] == preferred_type and can_assign(...)]`,
with the short-circuit evaluation order of the comprehension. -/
def tfAux (df : List Student) (caps : List (String × Nat))
    (types : List (String × String)) (nv : List String) (row : Student) :
    List String → List String × DD → List String × DD
  | [], acc => acc
  | p :: rest, acc =>
    if p ∈ nv then tfAux df caps types nv row rest acc
    else if (lookupA types p).getD "" = row.companyPreference then
      let c := can_assign df row p caps acc.2
      tfAux df caps types nv row rest (if c.1 then acc.1 ++ [p] else acc.1, c.2)
    else tfAux df caps types nv row rest acc

/-- The feasible projects of the student's preferred company type and
the dictionary after all the feasibility checks. -/
def typeFeasible (df : List Student) (caps : List (String × Nat))
    (types : List (String × String)) (pnames : List String) (nv : List String)
    (row : Student) (a : DD) : List String × DD :=
  tfAux df caps types nv row pnames ([], a)

/-- STEP 3, one student from a dropped project: retry the preferences,
then a random choice among type-matching feasible projects, else append
the name to `unassigned_students`. -/
def reassignOne (R : Rand) (df : List Student) (caps : List (String × Nat))
    (types : List (String × String)) (pnames : List String) (nv : List String)
    (st : PipeState) (name : String) : PipeState :=
  let row := getRow df name
  let pr := prefScan df caps nv row (prefList row) st.asg
  match pr.1 with
  | some p => { st with asg := ddAppend pr.2 p name }
  | none =>
    let tf := typeFeasible df caps types pnames nv row pr.2
    if tf.1 = [] then
      { st with asg := tf.2, unassigned := st.unassigned ++ [name] }
    else
      let r := R.next st.gen
      { st with asg := ddAppend tf.2 (pickFrom tf.1 r.1) name, gen := r.2 }

/-- STEP 3: process every evicted student in `to_reassign` order. -/
def step3 (R : Rand) (df : List Student) (caps : List (String × Nat))
    (types : List (String × String)) (pnames : List String) (nv : List String)
    (tr : List String) (st : PipeState) : PipeState :=
  tr.foldl (reassignOne R df caps types pnames nv) st

/-- STEP 4, leftover detection: students in no project's member list and
not in `unassigned_students`, in table order. -/
def leftovers (df : List Student) (st : PipeState) : List String :=
  (df.map (fun s => s.name)).filter (fun s =>
    decide ((∀ pm ∈ st.asg, s ∉ pm.2) ∧ s ∉ st.unassigned))

/-- STEP 4, one leftover student: a random choice among type-matching
feasible projects, else append the name to `unassigned_students`. -/
def balanceOne (R : Rand) (df : List Student) (caps : List (String × Nat))
    (types : List (String × String)) (pnames : List String) (nv : List String)
    (st : PipeState) (name : String) : PipeState :=
  let row := getRow df name
  let tf := typeFeasible df caps types pnames nv row st.asg
  if tf.1 = [] then
    { st with asg := tf.2, unassigned := st.unassigned ++ [name] }
  else
    let r := R.next st.gen
    { st with asg := ddAppend tf.2 (pickFrom tf.1 r.1) name, gen := r.2 }

/-- STEP 4: process every leftover student (the list is computed once,
before the loop). -/
def step4 (R : Rand) (df : List Student) (caps : List (String × Nat))
    (types : List (String × String)) (pnames : List String) (nv : List String)
    (st : PipeState) : PipeState :=
  (leftovers df st).foldl (balanceOne R df caps types pnames nv) st

/-- STEP 5, rank derivation: the first `i` in 1..5 with
`st[f"Pref{i}"] == project`, else `None` (rendered `"Reassigned"`). -/
def firstIdx (project : String) : List String → Option Nat
  | [] => none
  | p :: rest =>
    if p = project then some 1 else (firstIdx project rest).map (fun i => i + 1)

/-- The derived preference rank of an assigned student. -/
def deriveRank (row : Student) (project : String) : Option Nat :=
  firstIdx project (prefList row)

/-- One row of `assigned_teams.csv`; `rank = none` is the
`"Reassigned"` sentinel. -/
structure LedgerRow where
  project : String
  ptype : String
  capacity : Nat
  student : String
  nationality : String
  background : String
  timeSlots : String
  companyPreference : String
  rank : Option Nat
deriving Repr, DecidableEq, Inhabited

/-- STEP 5, row assembly: one row per member of each project, iterating
the assignments dictionary in insertion order. -/
def buildRows (df : List Student) (caps : List (String × Nat))
    (types : List (String × String)) (dd : DD) : List LedgerRow :=
  dd.flatMap (fun pm =>
    pm.2.map (fun n =>
      let stu := getRow df n
      { project := pm.1
        ptype := (lookupA types pm.1).getD ""
        capacity := (lookupA caps pm.1).getD 0
        student := n
        nationality := stu.nationality
        background := stu.background
        timeSlots := stu.timeSlots
        companyPreference := stu.companyPreference
        rank := deriveRank stu pm.1 }))

/-- Lexicographic strictly-less on character sequences, by code point:
the order pandas applies to string columns. -/
def lexLt : List Char → List Char → Bool
  | [], [] => false
  | [], _ :: _ => true
  | _ :: _, [] => false
  | c1 :: r1, c2 :: r2 =>
    if c1.toNat < c2.toNat then true
    else if c2.toNat < c1.toNat then false
    else lexLt r1 r2

/-- Strict lexicographic order on strings. -/
def strLt (s1 s2 : String) : Prop := lexLt s1.data s2.data = true

/-- Lexicographic less-or-equal on strings. -/
def strLe (s1 s2 : String) : Prop := lexLt s2.data s1.data = false

/-- The comparison behind `sort_values(["Project", "Student"])`:
by project id, ties broken by student id. -/
def rowLE (r1 r2 : LedgerRow) : Prop :=
  strLt r1.project r2.project ∨
    (r1.project = r2.project ∧ strLe r1.student r2.student)

instance : DecidableRel rowLE := by
  intro r1 r2
  unfold rowLE strLt strLe
  infer_instance

/-- STEP 5, final sort of the ledger rows. -/
def sortLedger (rows : List LedgerRow) : List LedgerRow :=
  rows.insertionSort rowLE

/-- The state after STEP 1. -/
def afterStep1 (R : Rand) (df : List Student) (projs : List Project)
    (seed : Nat) : PipeState :=
  step1 R df (projCaps projs) seed

/-- The non-viable projects detected by STEP 2. -/
def notViableOf (R : Rand) (df : List Student) (projs : List Project)
    (seed : Nat) : List String :=
  not_viable (projCaps projs) (afterStep1 R df projs seed).asg

/-- The evicted students (`to_reassign`) and the state after STEP 2. -/
def afterStep2 (R : Rand) (df : List Student) (projs : List Project)
    (seed : Nat) : List String × PipeState :=
  evict (notViableOf R df projs seed) (afterStep1 R df projs seed)

/-- The state after STEP 3. -/
def afterStep3 (R : Rand) (df : List Student) (projs : List Project)
    (seed : Nat) : PipeState :=
  step3 R df (projCaps projs) (projTypes projs) (projectNames projs)
    (notViableOf R df projs seed)
    (afterStep2 R df projs seed).1 (afterStep2 R df projs seed).2

/-- The state after STEP 4 (the ledger is read-only from here on). -/
def afterStep4 (R : Rand) (df : List Student) (projs : List Project)
    (seed : Nat) : PipeState :=
  step4 R df (projCaps projs) (projTypes projs) (projectNames projs)
    (notViableOf R df projs seed) (afterStep3 R df projs seed)

/-- The final sorted ledger (`assigned_teams.csv`). -/
def finalLedger (R : Rand) (df : List Student) (projs : List Project)
    (seed : Nat) : List LedgerRow :=
  sortLedger (buildRows df (projCaps projs) (projTypes projs)
    (afterStep4 R df projs seed).asg)

/-- The final `unassigned_students` list. -/
def finalUnassigned (R : Rand) (df : List Student) (projs : List Project)
    (seed : Nat) : List String :=
  (afterStep4 R df projs seed).unassigned

/-- The member count of a project in the assignments dictionary (0 for
a project never inserted). -/
def memberCount (dd : DD) (p : String) : Nat := ((lookupA dd p).getD []).length

/-- Every project key of the assignments dictionary is a catalog project
whose member list is within its capacity. -/
def capInv (caps : List (String × Nat)) (dd : DD) : Prop :=
  ∀ pm ∈ dd, ∃ c, lookupA caps pm.1 = some c ∧ pm.2.length ≤ c

/-- A project a reassignment step may legitimately commit to: viable,
in the catalog, currently present, with spare capacity. -/
def goodChoice (caps : List (String × Nat)) (nv : List String) (q : String)
    (dd : DD) : Prop :=
  q ∉ nv ∧ ∃ cap v, lookupA caps q = some cap ∧ lookupA dd q = some v ∧
    v.length < cap

/-- Everyone the state accounts for: all project members, then the
unassigned students. -/
def placed (st : PipeState) : List String := memLists st.asg ++ st.unassigned

/-- Modelled from the spec: the claimed three-key ledger order compares
by project id, then by derived preference rank, then by student id. The
fallback sentinel is placed after the numeric ranks (rank key 6). -/
def rankKey : Option Nat → Nat
  | some r => r
  | none => 6

/-- Modelled from the spec: one comparison step of the claimed
three-key sort order. -/
def threeKeyLE (r1 r2 : LedgerRow) : Prop :=
  strLt r1.project r2.project ∨
    (r1.project = r2.project ∧
      (rankKey r1.rank < rankKey r2.rank ∨
        (rankKey r1.rank = rankKey r2.rank ∧ strLe r1.student r2.student)))

instance : DecidableRel threeKeyLE := by
  intro r1 r2
  unfold threeKeyLE strLt strLe
  infer_instance

/-- Modelled from the spec: the ledger is sorted when every adjacent
pair respects the three-key order. -/
def threeKeySorted (l : List LedgerRow) : Prop := l.Chain' threeKeyLE

instance threeKeySortedDec (l : List LedgerRow) : Decidable (threeKeySorted l) := by
  unfold threeKeySorted
  infer_instance

/-- Concrete input, one student whose five preferences name no catalog
project and whose company preference matches no project type. -/
def dfSolo : List Student :=
  [⟨"C", "N1", "B1", "1,2", "Z", "Z", "Z", "Z", "Z", "Company"⟩]

/-- Concrete catalog for `dfSolo`: one project of a different type. -/
def projsSolo : List Project := [⟨"P", "TUe", 1⟩]

/-- Concrete input, one student listing only project `P`. -/
def dfPrune : List Student :=
  [⟨"A", "N1", "B1", "1,2", "P", "P", "P", "P", "P", "X"⟩]

/-- Concrete catalog for `dfPrune`: `Q` is never queried by any
preference. -/
def projsPrune : List Project := [⟨"P", "T", 1⟩, ⟨"Q", "T", 4⟩]

/-- Concrete input, two students who both land in project `P`: `A` via
rank 2 (the first preference names no catalog project), `B` via
rank 1. -/
def dfTwo : List Student :=
  [⟨"A", "N1", "B1", "1,2", "Z", "P", "P", "P", "P", "X"⟩,
   ⟨"B", "N2", "B2", "1,2", "P", "P", "P", "P", "P", "X"⟩]

/-- Concrete catalog for `dfTwo`. -/
def projsTwo : List Project := [⟨"P", "T", 2⟩]

/-- Concrete input, two students assigned to `P` in the first pass and
evicted (member count 2 is below the threshold `6 / 2`); neither can be
re-placed, so both end unassigned. -/
def dfEvict : List Student :=
  [⟨"A", "N1", "B1", "1,2", "P", "P", "P", "P", "P", "X"⟩,
   ⟨"B", "N2", "B2", "1,2", "P", "P", "P", "P", "P", "X"⟩]

/-- Concrete catalog for `dfEvict`. -/
def projsEvict : List Project := [⟨"P", "T", 6⟩]

/-! ## Lexicographic order facts -/

theorem lexLt_trans : ∀ (a b c : List Char),
    lexLt a b = true → lexLt b c = true → lexLt a c = true := by
  intro a
  induction a with
  | nil =>
    intro b c hab hbc
    cases b with
    | nil => simp [lexLt] at hab
    | cons b1 br =>
      cases c with
      | nil => simp [lexLt] at hbc
      | cons c1 cr => rfl
  | cons a1 ar ih =>
    intro b c hab hbc
    cases b with
    | nil => simp [lexLt] at hab
    | cons b1 br =>
      cases c with
      | nil => simp [lexLt] at hbc
      | cons c1 cr =>
        unfold lexLt at hab hbc ⊢
        by_cases h1 : a1.toNat < b1.toNat
        · by_cases h2 : b1.toNat < c1.toNat
          · rw [if_pos (Nat.lt_trans h1 h2)]
          · by_cases h3 : c1.toNat < b1.toNat
            · rw [if_neg h2, if_pos h3] at hbc
              simp at hbc
            · have h4 : a1.toNat < c1.toNat := by omega
              rw [if_pos h4]
        · by_cases h2 : b1.toNat < a1.toNat
          · rw [if_neg h1, if_pos h2] at hab
            simp at hab
          · rw [if_neg h1, if_neg h2] at hab
            by_cases h3 : b1.toNat < c1.toNat
            · have h4 : a1.toNat < c1.toNat := by omega
              rw [if_pos h4]
            · by_cases h4 : c1.toNat < b1.toNat
              · rw [if_neg h3, if_pos h4] at hbc
                simp at hbc
              · rw [if_neg h3, if_neg h4] at hbc
                have h5 : ¬ a1.toNat < c1.toNat := by omega
                have h6 : ¬ c1.toNat < a1.toNat := by omega
                rw [if_neg h5, if_neg h6]
                exact ih br cr hab hbc

theorem lexLt_asymm : ∀ (a b : List Char),
    lexLt a b = true → lexLt b a = false := by
  intro a
  induction a with
  | nil =>
    intro b hab
    cases b with
    | nil => simp [lexLt] at hab
    | cons b1 br => rfl
  | cons a1 ar ih =>
    intro b hab
    cases b with
    | nil => simp [lexLt] at hab
    | cons b1 br =>
      unfold lexLt at hab ⊢
      by_cases h1 : a1.toNat < b1.toNat
      · have h2 : ¬ b1.toNat < a1.toNat := by omega
        rw [if_neg h2, if_pos h1]
      · by_cases h2 : b1.toNat < a1.toNat
        · rw [if_neg h1, if_pos h2] at hab
          simp at hab
        · rw [if_neg h1, if_neg h2] at hab
          rw [if_neg h2, if_neg h1]
          exact ih br hab

theorem lexLt_connex : ∀ (a b : List Char),
    lexLt a b = false → lexLt b a = false → a = b := by
  intro a
  induction a with
  | nil =>
    intro b hab _
    cases b with
    | nil => rfl
    | cons b1 br => simp [lexLt] at hab
  | cons a1 ar ih =>
    intro b hab hba
    cases b with
    | nil => simp [lexLt] at hba
    | cons b1 br =>
      unfold lexLt at hab hba
      by_cases h1 : a1.toNat < b1.toNat
      · rw [if_pos h1] at hab
        simp at hab
      · by_cases h2 : b1.toNat < a1.toNat
        · rw [if_pos h2] at hba
          simp at hba
        · rw [if_neg h1, if_neg h2] at hab
          rw [if_neg h2, if_neg h1] at hba
          have h3 : a1.toNat = b1.toNat := by omega
          have hc : a1 = b1 := Char.eq_of_val_eq (UInt32.ext h3)
          rw [hc, ih br hab hba]

theorem strLt_trans {a b c : String} (h1 : strLt a b) (h2 : strLt b c) :
    strLt a c :=
  lexLt_trans _ _ _ h1 h2

theorem strLe_trans {a b c : String} (h1 : strLe a b) (h2 : strLe b c) :
    strLe a c := by
  unfold strLe at h1 h2 ⊢
  cases hca : lexLt c.data a.data with
  | false => rfl
  | true =>
    exfalso
    cases hbc : lexLt b.data c.data with
    | true =>
      have h3 := lexLt_trans _ _ _ hbc hca
      rw [h1] at h3
      exact Bool.false_ne_true h3
    | false =>
      have heq := lexLt_connex _ _ hbc h2
      rw [← heq] at hca
      rw [h1] at hca
      exact Bool.false_ne_true hca

theorem strLe_total (a b : String) : strLe a b ∨ strLe b a := by
  unfold strLe
  cases h : lexLt b.data a.data with
  | false => exact Or.inl rfl
  | true => exact Or.inr (lexLt_asymm _ _ h)

theorem strEq_of_not_lt {a b : String} (h1 : lexLt a.data b.data = false)
    (h2 : lexLt b.data a.data = false) : a = b := by
  have h3 := lexLt_connex _ _ h1 h2
  cases a
  cases b
  exact congrArg String.mk h3

instance : IsTrans LedgerRow rowLE where
  trans := by
    intro a b c hab hbc
    rcases hab with h1 | ⟨h1, h2⟩
    · rcases hbc with h3 | ⟨h3, _⟩
      · exact Or.inl (strLt_trans h1 h3)
      · exact Or.inl (by rw [← h3]; exact h1)
    · rcases hbc with h3 | ⟨h3, h4⟩
      · exact Or.inl (by rw [h1]; exact h3)
      · exact Or.inr ⟨h1.trans h3, strLe_trans h2 h4⟩

instance : IsTotal LedgerRow rowLE where
  total := by
    intro a b
    cases hab : lexLt a.project.data b.project.data with
    | true => exact Or.inl (Or.inl hab)
    | false =>
      cases hba : lexLt b.project.data a.project.data with
      | true => exact Or.inr (Or.inl hba)
      | false =>
        have heq : a.project = b.project := strEq_of_not_lt hab hba
        rcases strLe_total a.student b.student with h | h
        · exact Or.inl (Or.inr ⟨heq, h⟩)
        · exact Or.inr (Or.inr ⟨heq.symm, h⟩)

/-! ## Dictionary lemmas -/

theorem lookupA_append_of_none {β : Type} {l1 : List (String × β)}
    (l2 : List (String × β)) {k : String} (h : lookupA l1 k = none) :
    lookupA (l1 ++ l2) k = lookupA l2 k := by
  induction l1 with
  | nil => rfl
  | cons kv rest ih =>
    obtain ⟨k', v⟩ := kv
    by_cases hk : k' = k
    · simp [lookupA, hk] at h
    · simp only [lookupA, hk, if_neg hk] at h ⊢
      simpa [List.cons_append, lookupA, hk] using ih h

theorem lookupA_append_of_some {β : Type} {l1 : List (String × β)}
    (l2 : List (String × β)) {k : String} {v : β} (h : lookupA l1 k = some v) :
    lookupA (l1 ++ l2) k = some v := by
  induction l1 with
  | nil => simp [lookupA] at h
  | cons kv rest ih =>
    obtain ⟨k', w⟩ := kv
    by_cases hk : k' = k
    · simp only [lookupA, if_pos hk] at h
      simp [List.cons_append, lookupA, hk, h]
    · simp only [lookupA, if_neg hk] at h
      simpa [List.cons_append, lookupA, hk] using ih h

theorem lookupA_isSome_iff {β : Type} (l : List (String × β)) (k : String) :
    (lookupA l k).isSome ↔ k ∈ l.map (fun pm => pm.1) := by
  induction l with
  | nil => simp [lookupA]
  | cons kv rest ih =>
    obtain ⟨k', v⟩ := kv
    by_cases hk : k' = k
    · simp [lookupA, hk]
    · simp [lookupA, hk, ih, Ne.symm hk]

theorem lookupA_mem {β : Type} {l : List (String × β)} {k : String} {v : β}
    (h : lookupA l k = some v) : (k, v) ∈ l := by
  induction l with
  | nil => simp [lookupA] at h
  | cons kv rest ih =>
    obtain ⟨k', w⟩ := kv
    by_cases hk : k' = k
    · subst hk
      rw [lookupA, if_pos rfl] at h
      obtain rfl : w = v := Option.some.inj h
      exact List.mem_cons_self _ _
    · rw [lookupA, if_neg hk] at h
      exact List.mem_cons_of_mem _ (ih h)

theorem ddGet_fst (dd : DD) (k : String) :
    (ddGet dd k).1 = (lookupA dd k).getD [] := by
  unfold ddGet
  cases h : lookupA dd k <;> simp [h]

theorem ddGet_snd_some {dd : DD} {k : String} {v : List String}
    (h : lookupA dd k = some v) : (ddGet dd k).2 = dd := by
  unfold ddGet
  rw [h]

theorem ddGet_snd_none {dd : DD} {k : String}
    (h : lookupA dd k = none) : (ddGet dd k).2 = dd ++ [(k, [])] := by
  unfold ddGet
  rw [h]

theorem lookupA_ddGet_snd_self (dd : DD) (k : String) :
    lookupA (ddGet dd k).2 k = some ((ddGet dd k).1) := by
  cases h : lookupA dd k with
  | some v => rw [ddGet_snd_some h, ddGet_fst, h]; rfl
  | none =>
    rw [ddGet_snd_none h, ddGet_fst, h, lookupA_append_of_none _ h]
    simp [lookupA]

theorem lookupA_ddGet_snd_ne {k' k : String} (dd : DD) (h : k' ≠ k) :
    lookupA (ddGet dd k).2 k' = lookupA dd k' := by
  cases h2 : lookupA dd k with
  | some v => rw [ddGet_snd_some h2]
  | none =>
    rw [ddGet_snd_none h2]
    cases h3 : lookupA dd k' with
    | some w => exact lookupA_append_of_some _ h3
    | none => rw [lookupA_append_of_none _ h3]; simp [lookupA, Ne.symm h]

theorem lookupA_ddSet_self (dd : DD) (k : String) (v : List String) :
    lookupA (ddSet dd k v) k = some v := by
  induction dd with
  | nil => simp [ddSet, lookupA]
  | cons kv rest ih =>
    obtain ⟨k', w⟩ := kv
    by_cases hk : k' = k
    · simp [ddSet, hk, lookupA]
    · simp [ddSet, hk, lookupA, ih]

theorem lookupA_ddSet_ne {k' k : String} (dd : DD) (v : List String) (h : k' ≠ k) :
    lookupA (ddSet dd k v) k' = lookupA dd k' := by
  induction dd with
  | nil => simp [ddSet, lookupA, Ne.symm h]
  | cons kv rest ih =>
    obtain ⟨k0, w⟩ := kv
    by_cases hk : k0 = k
    · subst hk
      simp [ddSet, lookupA, Ne.symm h]
    · simp [ddSet, hk, lookupA, ih]

theorem mem_ddSet {pm : String × List String} {dd : DD} {k : String}
    {v : List String} (h : pm ∈ ddSet dd k v) : pm ∈ dd ∨ pm = (k, v) := by
  induction dd with
  | nil => simp [ddSet] at h; simp [h]
  | cons kv rest ih =>
    obtain ⟨k', w⟩ := kv
    by_cases hk : k' = k
    · simp only [ddSet, if_pos hk] at h
      rcases List.mem_cons.mp h with h1 | h1
      · right; rw [h1, hk]
      · left; exact List.mem_cons_of_mem _ h1
    · simp only [ddSet, if_neg hk] at h
      rcases List.mem_cons.mp h with h1 | h1
      · left; simp [h1]
      · rcases ih h1 with h2 | h2
        · left; exact List.mem_cons_of_mem _ h2
        · right; exact h2

theorem ddKeys_ddSet_of_isSome {dd : DD} {k : String} (v : List String)
    (h : (lookupA dd k).isSome) : ddKeys (ddSet dd k v) = ddKeys dd := by
  induction dd with
  | nil => simp [lookupA] at h
  | cons kv rest ih =>
    obtain ⟨k', w⟩ := kv
    by_cases hk : k' = k
    · simp [ddSet, hk, ddKeys]
    · simp only [lookupA, if_neg hk] at h
      simp [ddSet, hk, ddKeys] at ih ⊢
      exact ih h

theorem memLists_append (l1 l2 : DD) :
    memLists (l1 ++ l2) = memLists l1 ++ memLists l2 := by
  simp [memLists]

theorem memLists_ddGet_snd (dd : DD) (k : String) :
    memLists (ddGet dd k).2 = memLists dd := by
  cases h : lookupA dd k with
  | some v => rw [ddGet_snd_some h]
  | none => rw [ddGet_snd_none h, memLists_append]; simp [memLists]

theorem memLists_ddSet_nil_perm {dd : DD} {k : String} {v : List String}
    (h : lookupA dd k = some v) :
    (memLists (ddSet dd k []) ++ v).Perm (memLists dd) := by
  induction dd with
  | nil => simp [lookupA] at h
  | cons kv rest ih =>
    obtain ⟨k', w⟩ := kv
    by_cases hk : k' = k
    · rw [lookupA, if_pos hk] at h
      obtain rfl : w = v := Option.some.inj h
      simp only [ddSet, if_pos hk, memLists, List.flatMap_cons, List.nil_append]
      exact List.perm_append_comm
    · rw [lookupA, if_neg hk] at h
      simp only [ddSet, if_neg hk, memLists, List.flatMap_cons, List.append_assoc]
      exact (ih h).append_left w

theorem ddAppend_cons_eq (k : String) (w : List String) (rest : DD) (n : String) :
    ddAppend ((k, w) :: rest) k n = (k, w ++ [n]) :: rest := by
  unfold ddAppend ddGet
  rw [lookupA, if_pos rfl]
  simp [ddSet]

theorem ddAppend_cons_ne {k' k : String} (hk : k' ≠ k)
    (w : List String) (rest : DD) (n : String) :
    ddAppend ((k', w) :: rest) k n = (k', w) :: ddAppend rest k n := by
  unfold ddAppend ddGet
  rw [lookupA, if_neg hk]
  cases h2 : lookupA rest k with
  | some v => simp only [ddSet, if_neg hk]
  | none => simp [ddSet, hk]

theorem memLists_ddAppend_perm (dd : DD) (k n : String) :
    (memLists (ddAppend dd k n)).Perm (n :: memLists dd) := by
  induction dd with
  | nil => simp [ddAppend, ddGet, lookupA, ddSet, memLists]
  | cons kv rest ih =>
    obtain ⟨k', w⟩ := kv
    by_cases hk : k' = k
    · subst hk
      rw [ddAppend_cons_eq]
      simp only [memLists, List.flatMap_cons, List.append_assoc,
        List.singleton_append]
      exact List.perm_middle
    · rw [ddAppend_cons_ne hk]
      simp only [memLists, List.flatMap_cons]
      exact (ih.append_left w).trans List.perm_middle

theorem ddKeys_ddAppend (dd : DD) (k n : String) :
    ddKeys (ddAppend dd k n) = ddKeys dd ∨
      (ddKeys (ddAppend dd k n) = ddKeys dd ++ [k] ∧ k ∉ ddKeys dd) := by
  unfold ddAppend
  dsimp only
  cases h : lookupA dd k with
  | some v =>
    left
    rw [ddGet_snd_some h]
    exact ddKeys_ddSet_of_isSome _ (by rw [h]; rfl)
  | none =>
    right
    refine ⟨?_, ?_⟩
    · rw [ddGet_snd_none h]
      have hs : (lookupA (dd ++ [(k, [])]) k).isSome := by
        rw [lookupA_append_of_none _ h, lookupA, if_pos rfl]
        rfl
      rw [ddKeys_ddSet_of_isSome _ hs]
      simp [ddKeys]
    · intro hmem
      have := (lookupA_isSome_iff dd k).mpr hmem
      rw [h] at this
      simp at this

theorem ddKeys_nodup_ddAppend {dd : DD} (k n : String)
    (h : (ddKeys dd).Nodup) : (ddKeys (ddAppend dd k n)).Nodup := by
  rcases ddKeys_ddAppend dd k n with h2 | ⟨h2, h3⟩
  · rw [h2]; exact h
  · rw [h2]
    simp [List.nodup_append, h, h3]

/-! ## `can_assign` effect lemmas -/

theorem can_assign_none {df : List Student} {row : Student} {p : String}
    {caps : List (String × Nat)} {dd : DD} (h : lookupA caps p = none) :
    can_assign df row p caps dd = (false, dd) := by
  unfold can_assign
  rw [h]

theorem can_assign_snd_eq {df : List Student} {row : Student} {p : String}
    {caps : List (String × Nat)} (dd : DD) {cap : Nat}
    (hc : lookupA caps p = some cap) :
    (can_assign df row p caps dd).2 = (ddGet dd p).2 := by
  unfold can_assign
  rw [hc]
  dsimp only
  split_ifs <;> rfl

theorem can_assign_snd_cases (df : List Student) (row : Student) (p : String)
    (caps : List (String × Nat)) (dd : DD) :
    (can_assign df row p caps dd).2 = dd ∨
      ((can_assign df row p caps dd).2 = dd ++ [(p, [])] ∧
        lookupA dd p = none ∧ (lookupA caps p).isSome) := by
  cases hc : lookupA caps p with
  | none => left; rw [can_assign_none hc]
  | some cap =>
    rw [can_assign_snd_eq dd hc]
    cases hd : lookupA dd p with
    | some v => left; exact ddGet_snd_some hd
    | none =>
      right
      exact ⟨ddGet_snd_none hd, rfl, rfl⟩

theorem can_assign_snd_memLists (df : List Student) (row : Student) (p : String)
    (caps : List (String × Nat)) (dd : DD) :
    memLists (can_assign df row p caps dd).2 = memLists dd := by
  rcases can_assign_snd_cases df row p caps dd with h | ⟨h, _, _⟩
  · rw [h]
  · rw [h, memLists_append]
    simp [memLists]

theorem can_assign_snd_lookupA_isSome {df : List Student} {row : Student}
    {p : String} {caps : List (String × Nat)} {dd : DD} {k : String}
    (h : (lookupA dd k).isSome) :
    lookupA (can_assign df row p caps dd).2 k = lookupA dd k := by
  rcases can_assign_snd_cases df row p caps dd with h2 | ⟨h2, _, _⟩
  · rw [h2]
  · rw [h2]
    obtain ⟨v, hv⟩ := Option.isSome_iff_exists.mp h
    rw [hv]
    exact lookupA_append_of_some _ hv

theorem can_assign_true_spec {df : List Student} {row : Student} {p : String}
    {caps : List (String × Nat)} {dd : DD}
    (h : (can_assign df row p caps dd).1 = true) :
    ∃ cap, lookupA caps p = some cap ∧
      lookupA (can_assign df row p caps dd).2 p = some ((ddGet dd p).1) ∧
      (ddGet dd p).1.length < cap := by
  cases hc : lookupA caps p with
  | none => rw [can_assign_none hc] at h; simp at h
  | some cap =>
    refine ⟨cap, rfl, ?_, ?_⟩
    · rw [can_assign_snd_eq dd hc]
      exact lookupA_ddGet_snd_self dd p
    · by_contra hle
      push_neg at hle
      unfold can_assign at h
      rw [hc] at h
      dsimp only at h
      rw [if_pos hle] at h
      simp at h

theorem ddKeys_can_assign_snd (df : List Student) (row : Student) (p : String)
    (caps : List (String × Nat)) (dd : DD) :
    ddKeys (can_assign df row p caps dd).2 = ddKeys dd ∨
      (ddKeys (can_assign df row p caps dd).2 = ddKeys dd ++ [p] ∧
        p ∉ ddKeys dd) := by
  rcases can_assign_snd_cases df row p caps dd with h | ⟨h, hnone, _⟩
  · left; rw [h]
  · right
    refine ⟨by rw [h]; simp [ddKeys], ?_⟩
    intro hmem
    have := (lookupA_isSome_iff dd p).mpr hmem
    rw [hnone] at this
    simp at this

theorem ddKeys_nodup_can_assign_snd {df : List Student} {row : Student}
    {p : String} {caps : List (String × Nat)} {dd : DD}
    (h : (ddKeys dd).Nodup) :
    (ddKeys (can_assign df row p caps dd).2).Nodup := by
  rcases ddKeys_can_assign_snd df row p caps dd with h2 | ⟨h2, h3⟩
  · rw [h2]; exact h
  · rw [h2]
    simp [List.nodup_append, h, h3]

theorem pickFrom_mem {l : List String} (r : Nat) (h : l ≠ []) :
    pickFrom l r ∈ l := by
  unfold pickFrom
  have hlen : 0 < l.length := List.length_pos.mpr h
  have : r % l.length < l.length := Nat.mod_lt _ hlen
  rw [List.getD_eq_getElem l "" this]
  exact List.getElem_mem this

/-! ## The capacity invariant -/

theorem foldl_inv {α β : Type} {P : β → Prop} {l : List α} {f : β → α → β}
    (h : ∀ b a, a ∈ l → P b → P (f b a)) :
    ∀ b, P b → P (l.foldl f b) := by
  induction l with
  | nil => intro b hb; exact hb
  | cons a rest ih =>
    intro b hb
    exact ih (fun b' a' ha' hb' => h b' a' (List.mem_cons_of_mem _ ha') hb')
      (f b a) (h b a (List.mem_cons_self _ _) hb)

theorem capInv_can_assign_snd {caps : List (String × Nat)} {dd : DD}
    (df : List Student) (row : Student) (p : String) (h : capInv caps dd) :
    capInv caps (can_assign df row p caps dd).2 := by
  rcases can_assign_snd_cases df row p caps dd with h2 | ⟨h2, _, hsome⟩
  · rw [h2]; exact h
  · rw [h2]
    intro pm hpm
    rcases List.mem_append.mp hpm with hm | hm
    · exact h pm hm
    · rw [List.mem_singleton] at hm
      subst hm
      obtain ⟨c, hc⟩ := Option.isSome_iff_exists.mp hsome
      exact ⟨c, hc, by simp⟩

theorem ddAppend_eq_of_some {dd : DD} {p : String} {v : List String} (n : String)
    (h : lookupA dd p = some v) : ddAppend dd p n = ddSet dd p (v ++ [n]) := by
  unfold ddAppend
  dsimp only
  rw [ddGet_snd_some h, ddGet_fst, h]
  rfl

theorem capInv_ddAppend {caps : List (String × Nat)} {dd : DD} {p : String}
    {cap : Nat} {v : List String} (n : String) (h : capInv caps dd)
    (hc : lookupA caps p = some cap) (hv : lookupA dd p = some v)
    (hl : v.length < cap) : capInv caps (ddAppend dd p n) := by
  rw [ddAppend_eq_of_some n hv]
  intro pm hpm
  rcases mem_ddSet hpm with hm | hm
  · exact h pm hm
  · subst hm
    exact ⟨cap, hc, by simpa using hl⟩

theorem capInv_ddSet_nil {caps : List (String × Nat)} {dd : DD} {p : String}
    (h : capInv caps dd) (hc : ∃ c, lookupA caps p = some c) :
    capInv caps (ddSet dd p []) := by
  intro pm hpm
  rcases mem_ddSet hpm with hm | hm
  · exact h pm hm
  · subst hm
    obtain ⟨c, hc⟩ := hc
    exact ⟨c, hc, by simp⟩

theorem capInv_step1Visit {caps : List (String × Nat)} (df : List Student)
    (i : Nat) {st : PipeState} (name : String) (h : capInv caps st.asg) :
    capInv caps (step1Visit df caps i st name).asg := by
  unfold step1Visit
  dsimp only
  split_ifs with h1 h2 h3
  · exact h
  · exact h
  · obtain ⟨cap, hc, hl, hlen⟩ := can_assign_true_spec h3
    exact capInv_ddAppend name (capInv_can_assign_snd df _ _ h) hc hl hlen
  · exact capInv_can_assign_snd df _ _ h

theorem capInv_step1 (R : Rand) (df : List Student) (caps : List (String × Nat))
    (seed : Nat) : capInv caps (step1 R df caps seed).asg := by
  unfold step1
  dsimp only
  exact foldl_inv (P := fun (st : PipeState) => capInv caps st.asg)
    (fun st i _ hst =>
      foldl_inv (P := fun (st : PipeState) => capInv caps st.asg)
        (fun st' n _ hst' => capInv_step1Visit df i n hst') st hst)
    _ (fun pm hpm => absurd hpm (List.not_mem_nil pm))

/-! ## STEP 2 lemmas -/

theorem not_viable_mem {caps : List (String × Nat)} {dd : DD} {p : String} :
    p ∈ not_viable caps dd ↔
      ∃ l, (p, l) ∈ dd ∧ l.length < (lookupA caps p).getD 0 / 2 := by
  unfold not_viable
  simp only [List.mem_map, List.mem_filter, decide_eq_true_eq]
  constructor
  · rintro ⟨⟨q, l⟩, ⟨hm, hl⟩, rfl⟩
    exact ⟨l, hm, hl⟩
  · rintro ⟨l, hm, hl⟩
    exact ⟨(p, l), ⟨hm, hl⟩, rfl⟩

theorem not_viable_subset_keys {caps : List (String × Nat)} {dd : DD}
    {p : String} (h : p ∈ not_viable caps dd) : p ∈ ddKeys dd := by
  obtain ⟨l, hm, _⟩ := not_viable_mem.mp h
  exact List.mem_map.mpr ⟨(p, l), hm, rfl⟩

theorem mem_keys_lookupA_isSome {dd : DD} {p : String} (h : p ∈ ddKeys dd) :
    (lookupA dd p).isSome := (lookupA_isSome_iff dd p).mpr h

theorem capInv_of_mem_keys {caps : List (String × Nat)} {dd : DD} {p : String}
    (h : capInv caps dd) (hp : p ∈ ddKeys dd) :
    ∃ c, lookupA caps p = some c := by
  obtain ⟨v, hv⟩ := Option.isSome_iff_exists.mp (mem_keys_lookupA_isSome hp)
  obtain ⟨c, hc, _⟩ := h (p, v) (lookupA_mem hv)
  exact ⟨c, hc⟩

theorem capInv_evictAux {caps : List (String × Nat)} :
    ∀ (nv : List String) (acc : List String × DD),
      capInv caps acc.2 → (∀ q ∈ nv, q ∈ ddKeys acc.2) →
      capInv caps (evictAux nv acc).2 := by
  intro nv
  induction nv with
  | nil => intro acc h _; exact h
  | cons p rest ih =>
    intro acc h hks
    unfold evictAux
    dsimp only
    have hp : (lookupA acc.2 p).isSome :=
      mem_keys_lookupA_isSome (hks p (List.mem_cons_self _ _))
    obtain ⟨v, hv⟩ := Option.isSome_iff_exists.mp hp
    rw [ddGet_snd_some hv]
    apply ih
    · exact capInv_ddSet_nil h (capInv_of_mem_keys h (hks p (List.mem_cons_self _ _)))
    · intro q hq
      have hk := hks q (List.mem_cons_of_mem _ hq)
      have : (lookupA (ddSet acc.2 p []) q).isSome := by
        by_cases hqp : q = p
        · subst hqp; rw [lookupA_ddSet_self]; rfl
        · rw [lookupA_ddSet_ne _ _ hqp]
          exact mem_keys_lookupA_isSome hk
      exact (lookupA_isSome_iff _ q).mp this

/-! ## STEP 3/4 helper lemmas -/

theorem goodChoice_can_assign {caps : List (String × Nat)} {nv : List String}
    {q : String} {dd : DD} (df : List Student) (row : Student) (p : String)
    (h : goodChoice caps nv q dd) :
    goodChoice caps nv q (can_assign df row p caps dd).2 := by
  obtain ⟨hnv, cap, v, hc, hv, hl⟩ := h
  refine ⟨hnv, cap, v, hc, ?_, hl⟩
  rw [can_assign_snd_lookupA_isSome (by rw [hv]; rfl)]
  exact hv

theorem capInv_ddAppend_good {caps : List (String × Nat)} {nv : List String}
    {p : String} {dd : DD} (n : String) (h : capInv caps dd)
    (hg : goodChoice caps nv p dd) : capInv caps (ddAppend dd p n) := by
  obtain ⟨_, cap, v, hc, hv, hl⟩ := hg
  exact capInv_ddAppend n h hc hv hl

theorem prefScan_some_spec {df : List Student} {caps : List (String × Nat)}
    {nv : List String} {row : Student} :
    ∀ (prefs : List String) (a : DD) (p : String),
      (prefScan df caps nv row prefs a).1 = some p →
      goodChoice caps nv p (prefScan df caps nv row prefs a).2 := by
  intro prefs
  induction prefs with
  | nil => intro a p h; simp [prefScan] at h
  | cons q rest ih =>
    intro a p h
    unfold prefScan at h ⊢
    dsimp only at h ⊢
    split_ifs at h ⊢ with h1 h2
    · exact ih a p h
    · rw [Option.some.injEq] at h
      subst h
      obtain ⟨cap, hc, hl, hlen⟩ := can_assign_true_spec h2
      exact ⟨h1, cap, _, hc, hl, hlen⟩
    · exact ih _ p h

theorem prefScan_snd_memLists {df : List Student} {caps : List (String × Nat)}
    {nv : List String} {row : Student} :
    ∀ (prefs : List String) (a : DD),
      memLists (prefScan df caps nv row prefs a).2 = memLists a := by
  intro prefs
  induction prefs with
  | nil => intro a; rfl
  | cons q rest ih =>
    intro a
    unfold prefScan
    dsimp only
    split_ifs with h1 h2
    · exact ih a
    · exact can_assign_snd_memLists df row q caps a
    · rw [ih _]
      exact can_assign_snd_memLists df row q caps a

theorem capInv_prefScan {df : List Student} {caps : List (String × Nat)}
    {nv : List String} {row : Student} :
    ∀ (prefs : List String) (a : DD), capInv caps a →
      capInv caps (prefScan df caps nv row prefs a).2 := by
  intro prefs
  induction prefs with
  | nil => intro a h; exact h
  | cons q rest ih =>
    intro a h
    unfold prefScan
    dsimp only
    split_ifs with h1 h2
    · exact ih a h
    · exact capInv_can_assign_snd df row q h
    · exact ih _ (capInv_can_assign_snd df row q h)

theorem tfAux_snd_memLists {df : List Student} {caps : List (String × Nat)}
    {types : List (String × String)} {nv : List String} {row : Student} :
    ∀ (ps : List String) (acc : List String × DD),
      memLists (tfAux df caps types nv row ps acc).2 = memLists acc.2 := by
  intro ps
  induction ps with
  | nil => intro acc; rfl
  | cons p rest ih =>
    intro acc
    unfold tfAux
    dsimp only
    split_ifs with h1 h2 h3
    · exact ih acc
    · rw [ih _]
      exact can_assign_snd_memLists df row p caps acc.2
    · rw [ih _]
      exact can_assign_snd_memLists df row p caps acc.2
    · exact ih acc

theorem capInv_tfAux {df : List Student} {caps : List (String × Nat)}
    {types : List (String × String)} {nv : List String} {row : Student} :
    ∀ (ps : List String) (acc : List String × DD), capInv caps acc.2 →
      capInv caps (tfAux df caps types nv row ps acc).2 := by
  intro ps
  induction ps with
  | nil => intro acc h; exact h
  | cons p rest ih =>
    intro acc h
    unfold tfAux
    dsimp only
    split_ifs with h1 h2 h3
    · exact ih acc h
    · exact ih _ (capInv_can_assign_snd df row p h)
    · exact ih _ (capInv_can_assign_snd df row p h)
    · exact ih acc h

theorem tfAux_mem_spec {df : List Student} {caps : List (String × Nat)}
    {types : List (String × String)} {nv : List String} {row : Student} :
    ∀ (ps : List String) (acc : List String × DD),
      (∀ q ∈ acc.1, goodChoice caps nv q acc.2) →
      ∀ q ∈ (tfAux df caps types nv row ps acc).1,
        goodChoice caps nv q (tfAux df caps types nv row ps acc).2 := by
  intro ps
  induction ps with
  | nil => intro acc h; exact h
  | cons p rest ih =>
    intro acc h
    unfold tfAux
    dsimp only
    split_ifs with h1 h2 h3
    · exact ih acc h
    · apply ih
      intro q hq
      rcases List.mem_append.mp hq with hq1 | hq1
      · exact goodChoice_can_assign df row p (h q hq1)
      · rw [List.mem_singleton] at hq1
        subst hq1
        obtain ⟨cap, hcp, hl, hlen⟩ := can_assign_true_spec h3
        exact ⟨h1, cap, _, hcp, hl, hlen⟩
    · apply ih
      intro q hq
      exact goodChoice_can_assign df row p (h q hq)
    · exact ih acc h

theorem typeFeasible_mem_spec {df : List Student} {caps : List (String × Nat)}
    {types : List (String × String)} {pnames nv : List String} {row : Student}
    {a : DD} :
    ∀ q ∈ (typeFeasible df caps types pnames nv row a).1,
      goodChoice caps nv q (typeFeasible df caps types pnames nv row a).2 :=
  tfAux_mem_spec pnames ([], a) (fun q hq => absurd hq (List.not_mem_nil q))

theorem capInv_reassignOne {caps : List (String × Nat)}
    {types : List (String × String)} {pnames nv : List String}
    (R : Rand) (df : List Student) {st : PipeState} (name : String)
    (h : capInv caps st.asg) :
    capInv caps (reassignOne R df caps types pnames nv st name).asg := by
  unfold reassignOne
  dsimp only
  cases hp : (prefScan df caps nv (getRow df name)
      (prefList (getRow df name)) st.asg).1 with
  | some p =>
    exact capInv_ddAppend_good name (capInv_prefScan _ _ h)
      (prefScan_some_spec _ _ p hp)
  | none =>
    split_ifs with h1
    · exact capInv_tfAux _ _ (capInv_prefScan _ _ h)
    · apply capInv_ddAppend_good _ (capInv_tfAux _ _ (capInv_prefScan _ _ h))
      exact typeFeasible_mem_spec _ (pickFrom_mem _ h1)

theorem capInv_balanceOne {caps : List (String × Nat)}
    {types : List (String × String)} {pnames nv : List String}
    (R : Rand) (df : List Student) {st : PipeState} (name : String)
    (h : capInv caps st.asg) :
    capInv caps (balanceOne R df caps types pnames nv st name).asg := by
  unfold balanceOne
  dsimp only
  split_ifs with h1
  · exact capInv_tfAux _ _ h
  · apply capInv_ddAppend_good _ (capInv_tfAux _ _ h)
    exact typeFeasible_mem_spec _ (pickFrom_mem _ h1)

theorem capInv_step3 {caps : List (String × Nat)}
    {types : List (String × String)} {pnames nv : List String}
    (R : Rand) (df : List Student) (tr : List String) {st : PipeState}
    (h : capInv caps st.asg) :
    capInv caps (step3 R df caps types pnames nv tr st).asg := by
  unfold step3
  exact foldl_inv (P := fun (st : PipeState) => capInv caps st.asg)
    (fun st' n _ hst' => capInv_reassignOne R df n hst') st h

theorem capInv_step4 {caps : List (String × Nat)}
    {types : List (String × String)} {pnames nv : List String}
    (R : Rand) (df : List Student) {st : PipeState} (h : capInv caps st.asg) :
    capInv caps (step4 R df caps types pnames nv st).asg := by
  unfold step4
  exact foldl_inv (P := fun (st : PipeState) => capInv caps st.asg)
    (fun st' n _ hst' => capInv_balanceOne R df n hst') st h

/-! ## Key-set lemmas: the dictionary keys stay duplicate-free -/

theorem lookupA_ddAppend_ne {p q : String} (dd : DD) (n : String) (h : p ≠ q) :
    lookupA (ddAppend dd q n) p = lookupA dd p := by
  unfold ddAppend
  dsimp only
  rw [lookupA_ddSet_ne _ _ h, lookupA_ddGet_snd_ne _ h]

theorem ddKeys_ddGet_snd (dd : DD) (k : String) :
    ddKeys (ddGet dd k).2 = ddKeys dd ∨
      (ddKeys (ddGet dd k).2 = ddKeys dd ++ [k] ∧ k ∉ ddKeys dd) := by
  cases h : lookupA dd k with
  | some v => left; rw [ddGet_snd_some h]
  | none =>
    right
    refine ⟨by rw [ddGet_snd_none h]; simp [ddKeys], ?_⟩
    intro hmem
    have := (lookupA_isSome_iff dd k).mpr hmem
    rw [h] at this
    simp at this

theorem ddKeys_nodup_ddSet {dd : DD} {k : String} (v : List String)
    (h : (ddKeys dd).Nodup) : (ddKeys (ddSet dd k v)).Nodup := by
  cases hs : lookupA dd k with
  | some w => rw [ddKeys_ddSet_of_isSome v (by rw [hs]; rfl)]; exact h
  | none =>
    have hk : k ∉ ddKeys dd := by
      intro hmem
      have := (lookupA_isSome_iff dd k).mpr hmem
      rw [hs] at this
      simp at this
    have : ddKeys (ddSet dd k v) = ddKeys dd ++ [k] := by
      clear hs
      induction dd with
      | nil => simp [ddSet, ddKeys]
      | cons kv rest ih =>
        obtain ⟨k', w⟩ := kv
        by_cases hkk : k' = k
        · exact absurd (by simp [ddKeys, hkk]) hk
        · simp only [ddSet, if_neg hkk, ddKeys, List.map_cons, List.cons_append]
          have := ih (by simpa [ddKeys] using List.Nodup.of_cons h)
            (fun hm => hk (by simp [ddKeys] at hm ⊢; right; simpa [ddKeys] using hm))
          simpa [ddKeys] using this
    rw [this]
    simp [List.nodup_append, h, hk]

theorem ddKeys_nodup_evictAux :
    ∀ (nv : List String) (acc : List String × DD),
      (ddKeys acc.2).Nodup → (ddKeys (evictAux nv acc).2).Nodup := by
  intro nv
  induction nv with
  | nil => intro acc h; exact h
  | cons p rest ih =>
    intro acc h
    unfold evictAux
    dsimp only
    apply ih
    apply ddKeys_nodup_ddSet
    rcases ddKeys_ddGet_snd acc.2 p with h2 | ⟨h2, h3⟩
    · rw [h2]; exact h
    · rw [h2]; simp [List.nodup_append, h, h3]

theorem ddKeys_nodup_prefScan {df : List Student} {caps : List (String × Nat)}
    {nv : List String} {row : Student} :
    ∀ (prefs : List String) (a : DD), (ddKeys a).Nodup →
      (ddKeys (prefScan df caps nv row prefs a).2).Nodup := by
  intro prefs
  induction prefs with
  | nil => intro a h; exact h
  | cons q rest ih =>
    intro a h
    unfold prefScan
    dsimp only
    split_ifs with h1 h2
    · exact ih a h
    · exact ddKeys_nodup_can_assign_snd h
    · exact ih _ (ddKeys_nodup_can_assign_snd h)

theorem ddKeys_nodup_tfAux {df : List Student} {caps : List (String × Nat)}
    {types : List (String × String)} {nv : List String} {row : Student} :
    ∀ (ps : List String) (acc : List String × DD), (ddKeys acc.2).Nodup →
      (ddKeys (tfAux df caps types nv row ps acc).2).Nodup := by
  intro ps
  induction ps with
  | nil => intro acc h; exact h
  | cons p rest ih =>
    intro acc h
    unfold tfAux
    dsimp only
    split_ifs with h1 h2 h3
    · exact ih acc h
    · exact ih _ (ddKeys_nodup_can_assign_snd h)
    · exact ih _ (ddKeys_nodup_can_assign_snd h)
    · exact ih acc h

theorem ddKeys_nodup_step1Visit {caps : List (String × Nat)} (df : List Student)
    (i : Nat) {st : PipeState} (name : String) (h : (ddKeys st.asg).Nodup) :
    (ddKeys (step1Visit df caps i st name).asg).Nodup := by
  unfold step1Visit
  dsimp only
  split_ifs with h1 h2 h3
  · exact h
  · exact h
  · exact ddKeys_nodup_ddAppend _ name (ddKeys_nodup_can_assign_snd h)
  · exact ddKeys_nodup_can_assign_snd h

theorem ddKeys_nodup_step1 (R : Rand) (df : List Student)
    (caps : List (String × Nat)) (seed : Nat) :
    (ddKeys (step1 R df caps seed).asg).Nodup := by
  unfold step1
  dsimp only
  exact foldl_inv (P := fun (st : PipeState) => (ddKeys st.asg).Nodup)
    (fun st i _ hst =>
      foldl_inv (P := fun (st : PipeState) => (ddKeys st.asg).Nodup)
        (fun st' n _ hst' => ddKeys_nodup_step1Visit df i n hst') st hst)
    _ List.nodup_nil

theorem ddKeys_nodup_reassignOne {caps : List (String × Nat)}
    {types : List (String × String)} {pnames nv : List String}
    (R : Rand) (df : List Student) {st : PipeState} (name : String)
    (h : (ddKeys st.asg).Nodup) :
    (ddKeys (reassignOne R df caps types pnames nv st name).asg).Nodup := by
  unfold reassignOne
  dsimp only
  cases hp : (prefScan df caps nv (getRow df name)
      (prefList (getRow df name)) st.asg).1 with
  | some p => exact ddKeys_nodup_ddAppend _ name (ddKeys_nodup_prefScan _ _ h)
  | none =>
    split_ifs with h1
    · exact ddKeys_nodup_tfAux _ _ (ddKeys_nodup_prefScan _ _ h)
    · exact ddKeys_nodup_ddAppend _ name
        (ddKeys_nodup_tfAux _ _ (ddKeys_nodup_prefScan _ _ h))

theorem ddKeys_nodup_balanceOne {caps : List (String × Nat)}
    {types : List (String × String)} {pnames nv : List String}
    (R : Rand) (df : List Student) {st : PipeState} (name : String)
    (h : (ddKeys st.asg).Nodup) :
    (ddKeys (balanceOne R df caps types pnames nv st name).asg).Nodup := by
  unfold balanceOne
  dsimp only
  split_ifs with h1
  · exact ddKeys_nodup_tfAux _ _ h
  · exact ddKeys_nodup_ddAppend _ name (ddKeys_nodup_tfAux _ _ h)

theorem ddKeys_nodup_afterStep4 (R : Rand) (df : List Student)
    (projs : List Project) (seed : Nat) :
    (ddKeys (afterStep4 R df projs seed).asg).Nodup := by
  unfold afterStep4 step4
  apply foldl_inv (P := fun (st : PipeState) => (ddKeys st.asg).Nodup)
    (fun st' n _ hst' => ddKeys_nodup_balanceOne R df n hst')
  unfold afterStep3 step3
  apply foldl_inv (P := fun (st : PipeState) => (ddKeys st.asg).Nodup)
    (fun st' n _ hst' => ddKeys_nodup_reassignOne R df n hst')
  unfold afterStep2 evict
  dsimp only
  apply ddKeys_nodup_evictAux
  exact ddKeys_nodup_step1 R df (projCaps projs) seed

/-! ## Lookup stability for a non-viable project across steps 3 and 4 -/

theorem prefScan_lookupA_isSome {df : List Student} {caps : List (String × Nat)}
    {nv : List String} {row : Student} {k : String} :
    ∀ (prefs : List String) (a : DD), (lookupA a k).isSome →
      lookupA (prefScan df caps nv row prefs a).2 k = lookupA a k := by
  intro prefs
  induction prefs with
  | nil => intro a _; rfl
  | cons q rest ih =>
    intro a h
    unfold prefScan
    dsimp only
    split_ifs with h1 h2
    · exact ih a h
    · exact can_assign_snd_lookupA_isSome h
    · rw [ih _ (by rw [can_assign_snd_lookupA_isSome h]; exact h)]
      exact can_assign_snd_lookupA_isSome h

theorem tfAux_lookupA_isSome {df : List Student} {caps : List (String × Nat)}
    {types : List (String × String)} {nv : List String} {row : Student}
    {k : String} :
    ∀ (ps : List String) (acc : List String × DD), (lookupA acc.2 k).isSome →
      lookupA (tfAux df caps types nv row ps acc).2 k = lookupA acc.2 k := by
  intro ps
  induction ps with
  | nil => intro acc _; rfl
  | cons p rest ih =>
    intro acc h
    unfold tfAux
    dsimp only
    split_ifs with h1 h2 h3
    · exact ih acc h
    · rw [ih _ (by rw [can_assign_snd_lookupA_isSome h]; exact h)]
      exact can_assign_snd_lookupA_isSome h
    · rw [ih _ (by rw [can_assign_snd_lookupA_isSome h]; exact h)]
      exact can_assign_snd_lookupA_isSome h
    · exact ih acc h

theorem reassignOne_nv_lookup {caps : List (String × Nat)}
    {types : List (String × String)} {pnames nv : List String}
    (R : Rand) (df : List Student) {st : PipeState} (name : String) {p : String}
    (hp : p ∈ nv) (h : lookupA st.asg p = some []) :
    lookupA (reassignOne R df caps types pnames nv st name).asg p = some [] := by
  unfold reassignOne
  dsimp only
  have hs1 : lookupA (prefScan df caps nv (getRow df name)
      (prefList (getRow df name)) st.asg).2 p = some [] := by
    rw [prefScan_lookupA_isSome _ _ (by rw [h]; rfl)]
    exact h
  cases hres : (prefScan df caps nv (getRow df name)
      (prefList (getRow df name)) st.asg).1 with
  | some q =>
    have hq : q ∉ nv := (prefScan_some_spec _ _ q hres).1
    rw [lookupA_ddAppend_ne _ name (fun hpq => hq (by rw [← hpq]; exact hp))]
    exact hs1
  | none =>
    have hs2 : lookupA (typeFeasible df caps types pnames nv (getRow df name)
        (prefScan df caps nv (getRow df name)
          (prefList (getRow df name)) st.asg).2).2 p = some [] := by
      unfold typeFeasible
      rw [tfAux_lookupA_isSome _ _ (by rw [hs1]; rfl)]
      exact hs1
    split_ifs with h1
    · exact hs2
    · have hq : pickFrom (typeFeasible df caps types pnames nv (getRow df name)
          (prefScan df caps nv (getRow df name)
            (prefList (getRow df name)) st.asg).2).1 (R.next st.gen).1 ∉ nv :=
        (typeFeasible_mem_spec _ (pickFrom_mem _ h1)).1
      rw [lookupA_ddAppend_ne _ name (fun hpq => hq (by rw [← hpq]; exact hp))]
      exact hs2

theorem evictAux_placed : ∀ (nv : List String) (acc : List String × DD),
    (memLists (evictAux nv acc).2 ++ (evictAux nv acc).1).Perm
      (memLists acc.2 ++ acc.1) := by
  intro nv
  induction nv with
  | nil => intro acc; exact List.Perm.refl _
  | cons p rest ih =>
    intro acc
    unfold evictAux
    dsimp only
    refine (ih _).trans ?_
    have h1 : lookupA (ddGet acc.2 p).2 p = some ((ddGet acc.2 p).1) :=
      lookupA_ddGet_snd_self _ _
    have h2 := memLists_ddSet_nil_perm h1
    have h3 : memLists (ddGet acc.2 p).2 = memLists acc.2 :=
      memLists_ddGet_snd _ _
    refine ((List.perm_append_comm.append_left _).trans ?_)
    rw [← List.append_assoc]
    exact (h2.append_right acc.1).trans (by rw [h3])

theorem evictAux_lookup_post : ∀ (nv : List String) (acc : List String × DD)
    (p : String), lookupA acc.2 p = some [] →
    lookupA (evictAux nv acc).2 p = some [] := by
  intro nv
  induction nv with
  | nil => intro acc p h; exact h
  | cons q rest ih =>
    intro acc p h
    unfold evictAux
    dsimp only
    apply ih
    by_cases hpq : p = q
    · subst hpq
      exact lookupA_ddSet_self _ _ _
    · rw [lookupA_ddSet_ne _ _ hpq, lookupA_ddGet_snd_ne _ hpq]
      exact h

theorem evictAux_lookup_mem : ∀ (nv : List String) (acc : List String × DD)
    (p : String), p ∈ nv → lookupA (evictAux nv acc).2 p = some [] := by
  intro nv
  induction nv with
  | nil => intro acc p h; simp at h
  | cons q rest ih =>
    intro acc p h
    by_cases hpq : p = q
    · subst hpq
      unfold evictAux
      dsimp only
      exact evictAux_lookup_post rest _ p (lookupA_ddSet_self _ _ _)
    · unfold evictAux
      dsimp only
      exact ih _ p ((List.mem_cons.mp h).resolve_left (fun e => hpq e))

theorem evictAux_fst_monotone : ∀ (nv : List String) (acc : List String × DD),
    ∃ suffix, (evictAux nv acc).1 = acc.1 ++ suffix := by
  intro nv
  induction nv with
  | nil => intro acc; exact ⟨[], by simp [evictAux]⟩
  | cons q rest ih =>
    intro acc
    unfold evictAux
    dsimp only
    obtain ⟨suffix, hs⟩ := ih (acc.1 ++ (ddGet acc.2 q).1, ddSet (ddGet acc.2 q).2 q [])
    exact ⟨(ddGet acc.2 q).1 ++ suffix, by rw [hs, List.append_assoc]⟩

theorem lookupA_eq_of_nodup {dd : DD} (h : (ddKeys dd).Nodup)
    {p : String} {l : List String} (hm : (p, l) ∈ dd) :
    lookupA dd p = some l := by
  induction dd with
  | nil => simp at hm
  | cons kv rest ih =>
    obtain ⟨k, v⟩ := kv
    have h2 : (k :: ddKeys rest).Nodup := by simpa [ddKeys] using h
    rcases List.mem_cons.mp hm with h1 | h1
    · injection h1 with e1 e2
      subst e1
      subst e2
      rw [lookupA, if_pos rfl]
    · have hp : p ∈ ddKeys rest := List.mem_map.mpr ⟨(p, l), h1, rfl⟩
      have hk : k ≠ p := fun hkp => (List.nodup_cons.mp h2).1 (hkp ▸ hp)
      rw [lookupA, if_neg hk]
      exact ih (by simpa [ddKeys] using (List.nodup_cons.mp h2).2) h1

theorem balanceOne_nv_lookup {caps : List (String × Nat)}
    {types : List (String × String)} {pnames nv : List String}
    (R : Rand) (df : List Student) {st : PipeState} (name : String) {p : String}
    (hp : p ∈ nv) (h : lookupA st.asg p = some []) :
    lookupA (balanceOne R df caps types pnames nv st name).asg p = some [] := by
  unfold balanceOne
  dsimp only
  have hs2 : lookupA (typeFeasible df caps types pnames nv
      (getRow df name) st.asg).2 p = some [] := by
    unfold typeFeasible
    rw [tfAux_lookupA_isSome _ _ (by rw [h]; rfl)]
    exact h
  split_ifs with h1
  · exact hs2
  · have hq : pickFrom (typeFeasible df caps types pnames nv
        (getRow df name) st.asg).1 (R.next st.gen).1 ∉ nv :=
      (typeFeasible_mem_spec _ (pickFrom_mem _ h1)).1
    rw [lookupA_ddAppend_ne _ name (fun hpq => hq (by rw [← hpq]; exact hp))]
    exact hs2

theorem buildRows_countP_nil {df : List Student} {caps : List (String × Nat)}
    {types : List (String × String)} {dd : DD} {p : String}
    (h : ∀ l, (p, l) ∈ dd → l = []) :
    (buildRows df caps types dd).countP (fun r => r.project == p) = 0 := by
  induction dd with
  | nil => rfl
  | cons pm rest ih =>
    obtain ⟨q, l⟩ := pm
    unfold buildRows
    rw [List.flatMap_cons, List.countP_append]
    have hrest := ih (fun l' hm => h l' (List.mem_cons_of_mem _ hm))
    unfold buildRows at hrest
    rw [hrest, Nat.add_zero]
    by_cases hq : q = p
    · subst hq
      rw [h l (List.mem_cons_self _ _)]
      rfl
    · apply List.countP_eq_zero.mpr
      intro r hr
      obtain ⟨n, hn, rfl⟩ := List.mem_map.mp hr
      simp [hq]

/-! ## Claim theorems -/

/-- C2: at the end of every phase (initial assignment, pruning,
reassignment, balancing) every project's member count is at most its
capacity; moreover any append guarded by a successful `can_assign`
check preserves the bound. -/
theorem C2_capacity_invariant (R : Rand) (df : List Student)
    (projs : List Project) (seed : Nat) :
    (capInv (projCaps projs) (afterStep1 R df projs seed).asg ∧
      capInv (projCaps projs) (afterStep2 R df projs seed).2.asg ∧
      capInv (projCaps projs) (afterStep3 R df projs seed).asg ∧
      capInv (projCaps projs) (afterStep4 R df projs seed).asg) ∧
    (∀ (df2 : List Student) (row : Student) (q n : String) (dd : DD),
      capInv (projCaps projs) dd →
      (can_assign df2 row q (projCaps projs) dd).1 = true →
      capInv (projCaps projs)
        (ddAppend (can_assign df2 row q (projCaps projs) dd).2 q n)) := by
  have h1 : capInv (projCaps projs) (afterStep1 R df projs seed).asg :=
    capInv_step1 R df (projCaps projs) seed
  have h2 : capInv (projCaps projs) (afterStep2 R df projs seed).2.asg := by
    unfold afterStep2 evict
    dsimp only
    exact capInv_evictAux _ _ h1 (fun q hq => not_viable_subset_keys hq)
  have h3 : capInv (projCaps projs) (afterStep3 R df projs seed).asg := by
    unfold afterStep3
    exact capInv_step3 R df _ h2
  have h4 : capInv (projCaps projs) (afterStep4 R df projs seed).asg := by
    unfold afterStep4
    exact capInv_step4 R df h3
  refine ⟨⟨h1, h2, h3, h4⟩, ?_⟩
  intro df2 row q n dd hdd hc
  obtain ⟨cap, hcap, hl, hlen⟩ := can_assign_true_spec hc
  exact capInv_ddAppend _ (capInv_can_assign_snd df2 row q hdd) hcap hl hlen

/-- Witness for C2's capacity bound at a concrete run: both students
fit in project `P` of capacity 2. -/
theorem C2_capacity_invariant_witness :
    ∃ c, lookupA (projCaps projsTwo) "P" = some c ∧
      (["B", "A"] : List String).length ≤ c := by
  have h := ((C2_capacity_invariant idRand dfTwo projsTwo 42).1).2.2.2
  exact h ("P", ["B", "A"]) (by decide)

/-- C4 counterexample: catalog project `Q` of capacity 4 ends the first
pass with 0 members — strictly below `4 / 2` — yet is not marked
non-viable, because no student's preferences ever queried it, so it is
not a key of the assignments dictionary. -/
theorem C4_counterexample :
    memberCount (afterStep1 idRand dfPrune projsPrune 42).asg "Q" = 0 ∧
    0 < (lookupA (projCaps projsPrune) "Q").getD 0 / 2 ∧
    "Q" ∉ notViableOf idRand dfPrune projsPrune 42 := by
  decide

/-- C4 (amended): a project is marked non-viable exactly when it is a
key of the assignments dictionary (it was queried during the first
pass) whose member count is strictly below `floor(capacity/2)`; the
eviction step then empties every non-viable project atomically — no
member is lost (the members move, as a multiset, to `to_reassign`) and
the unassigned list is untouched. -/
theorem C4_amended (R : Rand) (df : List Student) (projs : List Project)
    (seed : Nat) (p : String) :
    (p ∈ notViableOf R df projs seed ↔
      ∃ l, lookupA (afterStep1 R df projs seed).asg p = some l ∧
        l.length < (lookupA (projCaps projs) p).getD 0 / 2) ∧
    (p ∈ notViableOf R df projs seed →
      lookupA (afterStep2 R df projs seed).2.asg p = some []) ∧
    ((memLists (afterStep2 R df projs seed).2.asg ++
        (afterStep2 R df projs seed).1).Perm
      (memLists (afterStep1 R df projs seed).asg)) ∧
    (afterStep2 R df projs seed).2.unassigned =
      (afterStep1 R df projs seed).unassigned := by
  have hnd : (ddKeys (afterStep1 R df projs seed).asg).Nodup := by
    unfold afterStep1
    exact ddKeys_nodup_step1 R df (projCaps projs) seed
  refine ⟨⟨?_, ?_⟩, ?_, ?_, rfl⟩
  · intro h
    obtain ⟨l, hm, hl⟩ := not_viable_mem.mp h
    exact ⟨l, lookupA_eq_of_nodup hnd hm, hl⟩
  · rintro ⟨l, hm, hl⟩
    exact not_viable_mem.mpr ⟨l, lookupA_mem hm, hl⟩
  · intro h
    unfold afterStep2 evict
    dsimp only
    exact evictAux_lookup_mem _ _ p h
  · unfold afterStep2 evict
    dsimp only
    have := evictAux_placed (notViableOf R df projs seed)
      ([], (afterStep1 R df projs seed).asg)
    simpa using this

/-- C5: a project marked non-viable has an empty member list after
eviction and keeps it through reassignment and balancing (no later
phase ever appends to it), and the final ledger carries no row for
it. -/
theorem C5_eviction_finality (R : Rand) (df : List Student)
    (projs : List Project) (seed : Nat) (p : String)
    (hp : p ∈ notViableOf R df projs seed) :
    lookupA (afterStep2 R df projs seed).2.asg p = some [] ∧
    lookupA (afterStep3 R df projs seed).asg p = some [] ∧
    lookupA (afterStep4 R df projs seed).asg p = some [] ∧
    (finalLedger R df projs seed).countP (fun r => r.project == p) = 0 := by
  have h2 : lookupA (afterStep2 R df projs seed).2.asg p = some [] := by
    unfold afterStep2 evict
    dsimp only
    exact evictAux_lookup_mem _ _ p hp
  have h3 : lookupA (afterStep3 R df projs seed).asg p = some [] := by
    unfold afterStep3 step3
    exact foldl_inv (P := fun (st : PipeState) => lookupA st.asg p = some [])
      (fun st' n _ hst' => reassignOne_nv_lookup R df n hp hst') _ h2
  have h4 : lookupA (afterStep4 R df projs seed).asg p = some [] := by
    unfold afterStep4 step4
    exact foldl_inv (P := fun (st : PipeState) => lookupA st.asg p = some [])
      (fun st' n _ hst' => balanceOne_nv_lookup R df n hp hst') _ h3
  have hkeys := ddKeys_nodup_afterStep4 R df projs seed
  have hall : ∀ l, (p, l) ∈ (afterStep4 R df projs seed).asg → l = [] := by
    intro l hm
    have := lookupA_eq_of_nodup hkeys hm
    rw [h4] at this
    exact (Option.some.inj this).symm
  have h5 : (buildRows df (projCaps projs) (projTypes projs)
      (afterStep4 R df projs seed).asg).countP
        (fun r => r.project == p) = 0 :=
    buildRows_countP_nil hall
  refine ⟨h2, h3, h4, ?_⟩
  unfold finalLedger sortLedger
  rw [(List.perm_insertionSort rowLE _).countP_eq]
  exact h5

/-- C3 counterexample: calling `can_assign` on catalog project `P`,
not yet a key of an empty assignments dictionary, inserts the key — the
state is not left unchanged. -/
theorem C3_counterexample :
    (can_assign dfPrune (getRow dfPrune "A") "P" (projCaps projsPrune)
      []).2 = [("P", [])] ∧
    ([("P", [])] : DD) ≠ ([] : DD) := by
  decide

/-- C3 (amended): `can_assign` returns a boolean and never changes an
existing binding nor any member list (the flattened members are
unchanged), but it may append one new key — the queried catalog
project — bound to the empty list, exactly the `defaultdict` read's
key insertion. -/
theorem C3_pure_up_to_key_insertion (df : List Student) (row : Student)
    (p : String) (caps : List (String × Nat)) (dd : DD) :
    (∀ k, (lookupA dd k).isSome →
      lookupA (can_assign df row p caps dd).2 k = lookupA dd k) ∧
    ((can_assign df row p caps dd).2 = dd ∨
      ((can_assign df row p caps dd).2 = dd ++ [(p, [])] ∧
        lookupA dd p = none ∧ (lookupA caps p).isSome)) ∧
    memLists (can_assign df row p caps dd).2 = memLists dd :=
  ⟨fun _ hk => can_assign_snd_lookupA_isSome hk,
    can_assign_snd_cases df row p caps dd,
    can_assign_snd_memLists df row p caps dd⟩

/-- C10: for a project id absent from the catalog, `can_assign`
returns `False` with the state untouched rather than failing, and a
first-pass visit whose preference entry names such a project leaves the
state entirely unchanged. -/
theorem C10_unknown_project (df : List Student) (row : Student) (p : String)
    (caps : List (String × Nat)) (dd : DD) (h : lookupA caps p = none) :
    can_assign df row p caps dd = (false, dd) ∧
    (∀ (st : PipeState) (name : String) (i : Nat),
      (prefList (getRow df name)).getD i "" = p →
      step1Visit df caps i st name = st) := by
  refine ⟨can_assign_none h, ?_⟩
  intro st name i hpp
  unfold step1Visit
  dsimp only
  split_ifs with h1 h2 h3
  · rfl
  · rfl
  · exact absurd (by rw [hpp]; exact h) h2
  · exact absurd (by rw [hpp]; exact h) h2

/-- Witness for C10: student `C`'s unknown preference `Z` is skipped
and `can_assign` rejects it without touching the state. -/
theorem C10_unknown_project_witness :
    can_assign dfSolo (getRow dfSolo "C") "Z" (projCaps projsSolo) [] =
      (false, []) ∧
    step1Visit dfSolo (projCaps projsSolo) 0
      { asg := [], assignedSet := [], unassigned := [], gen := 42 } "C" =
      { asg := [], assignedSet := [], unassigned := [], gen := 42 } := by
  have h := C10_unknown_project dfSolo (getRow dfSolo "C") "Z"
    (projCaps projsSolo) [] (by decide)
  exact ⟨h.1, h.2 _ "C" 0 (by decide)⟩

/-- C8: the embedded pipeline is deterministic — it is a function of
the generator, the two input tables and the seed alone, so identical
inputs yield an identical ledger and identical unassigned list. -/
theorem C8_determinism (R R2 : Rand) (df df2 : List Student)
    (projs projs2 : List Project) (seed seed2 : Nat)
    (hR : R = R2) (hdf : df = df2) (hp : projs = projs2)
    (hs : seed = seed2) :
    finalLedger R df projs seed = finalLedger R2 df2 projs2 seed2 ∧
    finalUnassigned R df projs seed = finalUnassigned R2 df2 projs2 seed2 := by
  subst hR
  subst hdf
  subst hp
  subst hs
  exact ⟨rfl, rfl⟩

/-- Witness for C8 at a concrete run. -/
theorem C8_determinism_witness :
    finalLedger idRand dfTwo projsTwo 42 =
      finalLedger idRand dfTwo projsTwo 42 ∧
    finalUnassigned idRand dfTwo projsTwo 42 =
      finalUnassigned idRand dfTwo projsTwo 42 :=
  C8_determinism idRand idRand dfTwo dfTwo projsTwo projsTwo 42 42
    rfl rfl rfl rfl

/-- C9 counterexample: the run on `dfTwo` puts students `A` (rank 2)
and `B` (rank 1) into project `P`; the produced ledger lists `A` before
`B`, so it is not sorted by the claimed (project, rank, student)
order. -/
theorem C9_counterexample :
    ¬ threeKeySorted (finalLedger idRand dfTwo projsTwo 42) := by
  intro hs
  have he : finalLedger idRand dfTwo projsTwo 42 =
      [⟨"P", "T", 2, "A", "N1", "B1", "1,2", "X", some 2⟩,
       ⟨"P", "T", 2, "B", "N2", "B2", "1,2", "X", some 1⟩] := by decide
  rw [he] at hs
  unfold threeKeySorted at hs
  rw [List.chain'_cons] at hs
  exact absurd hs.1 (by decide)

/-- C9 (amended): the final ledger is sorted by the two keys the code
actually passes to the sort — project id, then student id; the derived
rank is not a sort key. The sort is a permutation of the assembled
rows. -/
theorem C9_two_key_sort (R : Rand) (df : List Student) (projs : List Project)
    (seed : Nat) :
    (finalLedger R df projs seed).Sorted rowLE ∧
    (finalLedger R df projs seed).Perm
      (buildRows df (projCaps projs) (projTypes projs)
        (afterStep4 R df projs seed).asg) :=
  ⟨List.sorted_insertionSort rowLE _, List.perm_insertionSort rowLE _⟩

/-- C1 counterexample: student `C` is never evicted, ends the first
pass unassigned, and is recorded unassigned by the final balancing even
though the viable catalog project `P` passes the full feasibility check
once the company-type restriction is dropped — the script has no
type-unrestricted fallback attempt. -/
theorem C1_counterexample :
    finalUnassigned idRand dfSolo projsSolo 42 = ["C"] ∧
    "P" ∈ projectNames projsSolo ∧
    "P" ∉ notViableOf idRand dfSolo projsSolo 42 ∧
    (can_assign dfSolo (getRow dfSolo "C") "P" (projCaps projsSolo)
      (afterStep3 idRand dfSolo projsSolo 42).asg).1 = true := by
  decide

/-- C1 (amended): the engine retries an evicted student on their five
ranked preferences (skipping non-viable projects, first success wins)
and then on a random choice among viable feasible projects of their
preferred company type; a leftover never-assigned student gets only the
type-matching random choice. There is no type-unrestricted fallback: a
student is recorded unassigned exactly when the attempts just named
fail. Evicted students (`to_reassign`) are processed first, in STEP 3,
leftover students after them, in STEP 4. -/
theorem C1_reassignment_structure (R : Rand) (df : List Student)
    (caps : List (String × Nat)) (types : List (String × String))
    (pnames nv : List String) (st : PipeState) (name : String)
    (tr : List String) :
    ((reassignOne R df caps types pnames nv st name).unassigned =
        st.unassigned ++ [name] ↔
      ((prefScan df caps nv (getRow df name) (prefList (getRow df name))
          st.asg).1 = none ∧
        (typeFeasible df caps types pnames nv (getRow df name)
          (prefScan df caps nv (getRow df name) (prefList (getRow df name))
            st.asg).2).1 = [])) ∧
    (∀ p, (prefScan df caps nv (getRow df name) (prefList (getRow df name))
        st.asg).1 = some p →
      reassignOne R df caps types pnames nv st name =
        { st with asg := ddAppend (prefScan df caps nv (getRow df name)
            (prefList (getRow df name)) st.asg).2 p name }) ∧
    ((balanceOne R df caps types pnames nv st name).unassigned =
        st.unassigned ++ [name] ↔
      (typeFeasible df caps types pnames nv (getRow df name) st.asg).1 = []) ∧
    (step3 R df caps types pnames nv tr st =
      tr.foldl (reassignOne R df caps types pnames nv) st) ∧
    (∀ (st2 : PipeState), step4 R df caps types pnames nv st2 =
      (leftovers df st2).foldl (balanceOne R df caps types pnames nv) st2) := by
  have hne : ∀ (l : List String) (n : String), l ≠ l ++ [n] := by
    intro l n h
    have h2 := congrArg List.length h
    simp at h2
  refine ⟨?_, ?_, ?_, rfl, fun st2 => rfl⟩
  · unfold reassignOne
    dsimp only
    cases hres : (prefScan df caps nv (getRow df name)
        (prefList (getRow df name)) st.asg).1 with
    | some p =>
      constructor
      · intro h
        exact absurd h (hne _ _)
      · rintro ⟨h1, _⟩
        exact absurd h1 (by simp)
    | none =>
      split_ifs with htf
      · exact ⟨fun _ => ⟨rfl, htf⟩, fun _ => rfl⟩
      · constructor
        · intro h
          exact absurd h (hne _ _)
        · rintro ⟨_, h2⟩
          exact absurd h2 htf
  · intro p hres
    unfold reassignOne
    dsimp only
    rw [hres]
  · unfold balanceOne
    dsimp only
    split_ifs with htf
    · exact ⟨fun _ => htf, fun _ => rfl⟩
    · constructor
      · intro h
        exact absurd h (hne _ _)
      · intro h2
        exact absurd h2 htf

/-- Witness for C5 at a concrete run: project `P` (capacity 6) is
non-viable with 2 members, and ends every later phase empty. -/
theorem C5_eviction_finality_witness :
    "P" ∈ notViableOf idRand dfEvict projsEvict 42 ∧
    lookupA (afterStep4 idRand dfEvict projsEvict 42).asg "P" = some [] ∧
    (finalLedger idRand dfEvict projsEvict 42).countP
      (fun r => r.project == "P") = 0 := by
  have h := C5_eviction_finality idRand dfEvict projsEvict 42 "P" (by decide)
  exact ⟨by decide, h.2.2.1, h.2.2.2⟩

theorem firstIdx_some_spec : ∀ (l : List String) (t : String) (k : Nat),
    firstIdx t l = some k →
    1 ≤ k ∧ k ≤ l.length ∧ l.getD (k - 1) "" = t ∧
      ∀ j, j < k - 1 → l.getD j "" ≠ t := by
  intro l
  induction l with
  | nil => intro t k h; simp [firstIdx] at h
  | cons p rest ih =>
    intro t k h
    unfold firstIdx at h
    split_ifs at h with h1
    · have hk : k = 1 := (Option.some.inj h).symm
      subst hk
      refine ⟨le_refl 1, by simp, by simpa using h1, ?_⟩
      intro j hj
      exact absurd hj (by omega)
    · cases h2 : firstIdx t rest with
      | none => rw [h2] at h; simp at h
      | some m =>
        rw [h2] at h
        simp only [Option.map_some'] at h
        have hk : k = m + 1 := (Option.some.inj h).symm
        subst hk
        obtain ⟨hm1, hm2, hm3, hm4⟩ := ih t m h2
        have hms : m + 1 - 1 = m := by omega
        refine ⟨by omega, by simp [Nat.succ_le_succ hm2], ?_, ?_⟩
        · rw [hms]
          obtain ⟨m2, rfl⟩ : ∃ m2, m = m2 + 1 := ⟨m - 1, by omega⟩
          rw [List.getD_cons_succ]
          simpa using hm3
        · intro j hj
          rw [hms] at hj
          cases j with
          | zero => simpa using h1
          | succ j2 =>
            rw [List.getD_cons_succ]
            apply hm4
            omega

theorem firstIdx_none_spec : ∀ (l : List String) (t : String),
    firstIdx t l = none → t ∉ l := by
  intro l
  induction l with
  | nil => intro t _; simp
  | cons p rest ih =>
    intro t h
    unfold firstIdx at h
    split_ifs at h with h1
    · have h2 : firstIdx t rest = none := by
        cases h4 : firstIdx t rest with
        | none => rfl
        | some m => rw [h4] at h; simp at h
      intro hmem
      rcases List.mem_cons.mp hmem with h3 | h3
      · exact h1 h3.symm
      · exact ih t h2 h3

/-- C7: for every row of the final ledger, a numeric derived rank `k`
means the assigned project is the student's `k`-th ranked preference
(1 ≤ k ≤ 5) at the smallest such position, and the sentinel rank
(`none`, rendered "Reassigned") means the assigned project is not among
the student's five preferences. -/
theorem C7_rank_correctness (R : Rand) (df : List Student)
    (projs : List Project) (seed : Nat) (r : LedgerRow)
    (hr : r ∈ finalLedger R df projs seed) :
    (∀ k, r.rank = some k →
      1 ≤ k ∧ k ≤ 5 ∧
      (prefList (getRow df r.student)).getD (k - 1) "" = r.project ∧
      ∀ j, j < k - 1 →
        (prefList (getRow df r.student)).getD j "" ≠ r.project) ∧
    (r.rank = none → r.project ∉ prefList (getRow df r.student)) := by
  have hr2 : r ∈ buildRows df (projCaps projs) (projTypes projs)
      (afterStep4 R df projs seed).asg := by
    unfold finalLedger sortLedger at hr
    exact (List.perm_insertionSort rowLE _).mem_iff.mp hr
  obtain ⟨pm, hpm, hrow⟩ := List.mem_flatMap.mp hr2
  obtain ⟨n, hn, hr3⟩ := List.mem_map.mp hrow
  subst hr3
  dsimp only
  constructor
  · intro k hk
    obtain ⟨h1, h2, h3, h4⟩ :=
      firstIdx_some_spec (prefList (getRow df n)) pm.1 k hk
    exact ⟨h1, by simpa using h2, h3, h4⟩
  · intro hk
    exact firstIdx_none_spec _ _ hk

/-- Witness for C7 at a concrete ledger row: student `A` ends in
project `P` at derived rank 2, and indeed `P` is `A`'s second
preference while the first preference is not `P`. -/
theorem C7_rank_correctness_witness :
    (prefList (getRow dfTwo "A")).getD 1 "" = "P" ∧
    (prefList (getRow dfTwo "A")).getD 0 "" ≠ "P" := by
  have h := C7_rank_correctness idRand dfTwo projsTwo 42
    ⟨"P", "T", 2, "A", "N1", "B1", "1,2", "X", some 2⟩ (by decide)
  obtain ⟨h1, _⟩ := h
  obtain ⟨_, _, h3, h4⟩ := h1 2 rfl
  exact ⟨h3, fun hc => h4 0 (by omega) hc⟩

/-! ## Conservation: every student is accounted for exactly once -/

theorem memLists_length (dd : DD) :
    (memLists dd).length = (dd.map (fun pm => pm.2.length)).sum := by
  induction dd with
  | nil => rfl
  | cons pm rest ih =>
    show (pm.2 ++ memLists rest).length =
      pm.2.length + (rest.map (fun pm => pm.2.length)).sum
    rw [List.length_append, ih]

theorem step1Visit_inv {df : List Student} {caps : List (String × Nat)}
    {i : Nat} {names : List String} {st : PipeState} (name : String)
    (hmem : name ∈ names)
    (h1 : (memLists st.asg).Perm st.assignedSet)
    (h2 : st.assignedSet.Nodup)
    (h3 : ∀ x ∈ st.assignedSet, x ∈ names)
    (h4 : st.unassigned = []) :
    (memLists (step1Visit df caps i st name).asg).Perm
        (step1Visit df caps i st name).assignedSet ∧
      (step1Visit df caps i st name).assignedSet.Nodup ∧
      (∀ x ∈ (step1Visit df caps i st name).assignedSet, x ∈ names) ∧
      (step1Visit df caps i st name).unassigned = [] := by
  unfold step1Visit
  dsimp only
  split_ifs with hb1 hb2 hb3
  · exact ⟨h1, h2, h3, h4⟩
  · exact ⟨h1, h2, h3, h4⟩
  · refine ⟨?_, ?_, ?_, h4⟩
    · dsimp only
      refine (memLists_ddAppend_perm _ _ _).trans ?_
      rw [can_assign_snd_memLists]
      exact (h1.cons name).trans
        (@List.perm_append_comm _ [name] st.assignedSet)
    · rw [List.nodup_append]
      exact ⟨h2, List.nodup_singleton name,
        fun a ha hb => hb1 (by rwa [List.mem_singleton.mp hb] at ha)⟩
    · intro x hx
      rcases List.mem_append.mp hx with hx1 | hx1
      · exact h3 x hx1
      · rw [List.mem_singleton] at hx1
        subst hx1
        exact hmem
  · refine ⟨?_, h2, h3, h4⟩
    rw [can_assign_snd_memLists]
    exact h1

theorem step1_inv (R : Rand) (df : List Student) (caps : List (String × Nat))
    (seed : Nat)
    (hsh : ((R.shuffle (df.map (fun s => s.name)) seed).1).Perm
      (df.map (fun s => s.name))) :
    (memLists (step1 R df caps seed).asg).Perm
        (step1 R df caps seed).assignedSet ∧
      (step1 R df caps seed).assignedSet.Nodup ∧
      (∀ x ∈ (step1 R df caps seed).assignedSet,
        x ∈ df.map (fun s => s.name)) ∧
      (step1 R df caps seed).unassigned = [] := by
  unfold step1
  dsimp only
  refine foldl_inv (P := fun (st : PipeState) =>
      (memLists st.asg).Perm st.assignedSet ∧ st.assignedSet.Nodup ∧
      (∀ x ∈ st.assignedSet, x ∈ df.map (fun s => s.name)) ∧
      st.unassigned = []) ?_ _ ?_
  · intro st i _ hst
    refine foldl_inv (P := fun (st : PipeState) =>
        (memLists st.asg).Perm st.assignedSet ∧ st.assignedSet.Nodup ∧
        (∀ x ∈ st.assignedSet, x ∈ df.map (fun s => s.name)) ∧
        st.unassigned = []) ?_ st hst
    intro st2 n hn hst2
    exact step1Visit_inv n (hsh.mem_iff.mp hn) hst2.1 hst2.2.1
      hst2.2.2.1 hst2.2.2.2
  · exact ⟨List.Perm.refl _, List.nodup_nil,
      fun x hx => absurd hx (List.not_mem_nil x), rfl⟩

theorem typeFeasible_snd_memLists {df : List Student}
    {caps : List (String × Nat)} {types : List (String × String)}
    {pnames nv : List String} {row : Student} (a : DD) :
    memLists (typeFeasible df caps types pnames nv row a).2 = memLists a :=
  tfAux_snd_memLists pnames ([], a)

theorem reassignOne_placed {caps : List (String × Nat)}
    {types : List (String × String)} {pnames nv : List String}
    (R : Rand) (df : List Student) (st : PipeState) (name : String) :
    (placed (reassignOne R df caps types pnames nv st name)).Perm
      (name :: placed st) := by
  unfold reassignOne placed
  dsimp only
  cases hres : (prefScan df caps nv (getRow df name)
      (prefList (getRow df name)) st.asg).1 with
  | some p =>
    dsimp only
    refine ((memLists_ddAppend_perm _ _ _).append_right _).trans ?_
    rw [prefScan_snd_memLists]
    exact List.Perm.refl _
  | none =>
    split_ifs with htf
    · dsimp only
      rw [typeFeasible_snd_memLists, prefScan_snd_memLists,
        ← List.append_assoc]
      exact List.perm_append_comm
    · dsimp only
      refine ((memLists_ddAppend_perm _ _ _).append_right _).trans ?_
      rw [typeFeasible_snd_memLists, prefScan_snd_memLists]
      exact List.Perm.refl _

theorem balanceOne_placed {caps : List (String × Nat)}
    {types : List (String × String)} {pnames nv : List String}
    (R : Rand) (df : List Student) (st : PipeState) (name : String) :
    (placed (balanceOne R df caps types pnames nv st name)).Perm
      (name :: placed st) := by
  unfold balanceOne placed
  dsimp only
  split_ifs with htf
  · dsimp only
    rw [typeFeasible_snd_memLists, ← List.append_assoc]
    exact List.perm_append_comm
  · dsimp only
    refine ((memLists_ddAppend_perm _ _ _).append_right _).trans ?_
    rw [typeFeasible_snd_memLists]
    exact List.Perm.refl _

theorem foldl_placed {f : PipeState → String → PipeState}
    (hf : ∀ (st : PipeState) (n : String),
      (placed (f st n)).Perm (n :: placed st)) :
    ∀ (l : List String) (st : PipeState),
      (placed (l.foldl f st)).Perm (placed st ++ l) := by
  intro l
  induction l with
  | nil => intro st; simp
  | cons n rest ih =>
    intro st
    rw [List.foldl_cons]
    refine (ih (f st n)).trans ?_
    refine ((hf st n).append_right rest).trans ?_
    exact List.perm_middle.symm

theorem notMem_placed_iff {st : PipeState} {x : String} :
    x ∉ placed st ↔ (∀ pm ∈ st.asg, x ∉ pm.2) ∧ x ∉ st.unassigned := by
  unfold placed memLists
  constructor
  · intro h
    refine ⟨?_, fun hx => h (List.mem_append.mpr (Or.inr hx))⟩
    intro pm hpm hx
    exact h (List.mem_append.mpr (Or.inl (List.mem_flatMap.mpr ⟨pm, hpm, hx⟩)))
  · rintro ⟨h1, h2⟩ hx
    rcases List.mem_append.mp hx with hx1 | hx1
    · obtain ⟨pm, hpm, hx2⟩ := List.mem_flatMap.mp hx1
      exact h1 pm hpm hx2
    · exact h2 hx1

theorem leftovers_eq_filter (df : List Student) (st : PipeState) :
    leftovers df st = (df.map (fun s => s.name)).filter
      (fun s => decide (s ∉ placed st)) := by
  unfold leftovers
  apply List.filter_congr
  intro x _
  rw [decide_eq_decide]
  exact notMem_placed_iff.symm

theorem perm_filter_append {names l : List String} (hnames : names.Nodup)
    (hl : l.Nodup) (hsub : ∀ x ∈ l, x ∈ names) :
    (l ++ names.filter (fun x => decide (x ∉ l))).Perm names := by
  have hnd2 : (l ++ names.filter (fun x => decide (x ∉ l))).Nodup := by
    rw [List.nodup_append]
    refine ⟨hl, hnames.filter _, ?_⟩
    intro a ha hb
    have hdec := List.of_mem_filter hb
    simp only [decide_eq_true_eq] at hdec
    exact hdec ha
  rw [List.perm_ext_iff_of_nodup hnd2 hnames]
  intro a
  simp only [List.mem_append, List.mem_filter, decide_eq_true_eq]
  constructor
  · rintro (h | ⟨h, _⟩)
    · exact hsub a h
    · exact h
  · intro h
    by_cases hal : a ∈ l
    · exact Or.inl hal
    · exact Or.inr ⟨h, hal⟩

/-- C6: after the whole pipeline, the project member lists and the
unassigned list together hold every input student exactly once (they
form a permutation of the student names), so the member counts and the
unassigned count sum to the number of students. Hypotheses: student
names are distinct, and the shuffle produces a permutation of them
(which `random.shuffle` always does). -/
theorem C6_conservation (R : Rand) (df : List Student) (projs : List Project)
    (seed : Nat)
    (hnd : (df.map (fun s => s.name)).Nodup)
    (hsh : ((R.shuffle (df.map (fun s => s.name)) seed).1).Perm
      (df.map (fun s => s.name))) :
    (placed (afterStep4 R df projs seed)).Perm (df.map (fun s => s.name)) ∧
    (placed (afterStep4 R df projs seed)).Nodup ∧
    ((afterStep4 R df projs seed).asg.map (fun pm => pm.2.length)).sum +
      (afterStep4 R df projs seed).unassigned.length = df.length := by
  obtain ⟨A1, A2, A3, A4⟩ := step1_inv R df (projCaps projs) seed hsh
  have hev : (memLists (afterStep2 R df projs seed).2.asg ++
      (afterStep2 R df projs seed).1).Perm
      (memLists (afterStep1 R df projs seed).asg) := by
    unfold afterStep2 evict
    dsimp only
    have h := evictAux_placed (notViableOf R df projs seed)
      ([], (afterStep1 R df projs seed).asg)
    simpa using h
  have hu2 : (afterStep2 R df projs seed).2.unassigned = [] := A4
  have hp3 : (placed (afterStep3 R df projs seed)).Perm
      (placed (afterStep2 R df projs seed).2 ++
        (afterStep2 R df projs seed).1) := by
    unfold afterStep3 step3
    exact foldl_placed (fun st n => reassignOne_placed R df st n) _ _
  have hp3b : (placed (afterStep3 R df projs seed)).Perm
      (step1 R df (projCaps projs) seed).assignedSet := by
    refine hp3.trans ?_
    unfold placed
    rw [hu2, List.append_nil]
    exact hev.trans A1
  have B2 : (placed (afterStep3 R df projs seed)).Nodup :=
    hp3b.nodup_iff.mpr A2
  have B3 : ∀ x ∈ placed (afterStep3 R df projs seed),
      x ∈ df.map (fun s => s.name) :=
    fun x hx => A3 x (hp3b.mem_iff.mp hx)
  have hp4 : (placed (afterStep4 R df projs seed)).Perm
      (placed (afterStep3 R df projs seed) ++
        leftovers df (afterStep3 R df projs seed)) := by
    unfold afterStep4 step4
    exact foldl_placed (fun st n => balanceOne_placed R df st n) _ _
  have hfin : (placed (afterStep4 R df projs seed)).Perm
      (df.map (fun s => s.name)) := by
    refine hp4.trans ?_
    rw [leftovers_eq_filter]
    exact perm_filter_append hnd B2 B3
  refine ⟨hfin, hfin.nodup_iff.mpr hnd, ?_⟩
  have hlen := hfin.length_eq
  rw [placed, List.length_append, memLists_length, List.length_map] at hlen
  exact hlen

/-- Witness for C6 at a concrete run: both students of `dfTwo` are
accounted for exactly once. -/
theorem C6_conservation_witness :
    (placed (afterStep4 idRand dfTwo projsTwo 42)).Perm
      (dfTwo.map (fun s => s.name)) ∧
    (placed (afterStep4 idRand dfTwo projsTwo 42)).Nodup ∧
    ((afterStep4 idRand dfTwo projsTwo 42).asg.map
        (fun pm => pm.2.length)).sum +
      (afterStep4 idRand dfTwo projsTwo 42).unassigned.length =
        dfTwo.length :=
  C6_conservation idRand dfTwo projsTwo 42 (by decide) (by decide)

end StudentAssignment
